import Mathlib

set_option maxHeartbeats 1000000

/-
Verification development for the tessellation and priority-chop partitioning
engine of scripts/mezi/tessellate.py (Forest-harvest-planner).

The Python functions are shallowly embedded as executable Lean definitions:
  * `_distance_filter`          -> `distFilterStep` / `distFilterMask`
  * the `random` point count    -> `random_point_count`
  * the zonal statistics loop   -> `filtered_cell_data` / `cell_layer_stats`
  * the method dispatch         -> `tessellate_outcome`
  * Stage A greedy bucketing    -> `stageAAssign` / `stage_a_chops`
  * `_get_chop_clusters` etc.   -> `get_chop_clusters`, `iter_demotion_candidates`
  * the Stage C chop loop       -> `chooseCombo` / `stageCStep` / `stageC_iter`
Geometries are modelled as finite sets of sample points (`Finset ℕ`); two
geometries intersect iff the sets intersect.  Machine floats are modelled by
exact rationals.  Where Python iterates over a `set` (whose order is
unspecified), the model iterates in ascending order; every property proved
below is independent of that order.
-/

/-
Section 1: the minimum-distance point filter.

Python (tessellate.py, lines 28-37):
  def _distance_filter(xy, distance, mask):
      distance *= distance
      for i in range(xy.shape[0]):
          if not mask[i]:
              continue
          delta_xy = xy[mask] - xy[i]
          delta_xy *= delta_xy
          mask[mask] = delta_xy.sum(1) >= distance
          mask[i] = True
      return xy[mask]

The boolean mask is modelled as a function `ℕ → Bool`; one loop iteration is
`distFilterStep` (only currently-masked entries are re-assigned, which is the
same as and-ing the distance condition onto the previous mask value, and the
row of the current point is restored to `true`), and `distFilterMask xy d2 m k`
is the mask after the iterations `i = 0, ..., k-1`.
-/

def dist2 (p q : ℚ × ℚ) : ℚ :=
  (p.1 - q.1) * (p.1 - q.1) + (p.2 - q.2) * (p.2 - q.2)

def distFilterStep (xy : ℕ → ℚ × ℚ) (d2v : ℚ) (mask : ℕ → Bool) (i : ℕ) : ℕ → Bool :=
  if mask i then
    fun j => if j = i then true else mask j && decide (d2v ≤ dist2 (xy i) (xy j))
  else mask

def distFilterMask (xy : ℕ → ℚ × ℚ) (d2v : ℚ) (mask0 : ℕ → Bool) : ℕ → ℕ → Bool
  | 0 => mask0
  | k + 1 => distFilterStep xy d2v (distFilterMask xy d2v mask0 k) k

theorem dist2_comm (p q : ℚ × ℚ) : dist2 p q = dist2 q p := by
  unfold dist2; ring

theorem distFilterStep_le (xy : ℕ → ℚ × ℚ) (d2v : ℚ) (mask : ℕ → Bool) (i j : ℕ)
    (h : distFilterStep xy d2v mask i j = true) : mask j = true := by
  unfold distFilterStep at h
  by_cases hm : mask i
  · simp only [hm, if_true] at h
    by_cases hj : j = i
    · subst hj; exact hm
    · simp only [hj, if_false, Bool.and_eq_true] at h
      exact h.1
  · simp only [hm] at h
    simpa using h

theorem distFilterMask_succ_le (xy : ℕ → ℚ × ℚ) (d2v : ℚ) (mask0 : ℕ → Bool) (k j : ℕ)
    (h : distFilterMask xy d2v mask0 (k + 1) j = true) :
    distFilterMask xy d2v mask0 k j = true :=
  distFilterStep_le xy d2v _ k j h

theorem distFilterMask_mono (xy : ℕ → ℚ × ℚ) (d2v : ℚ) (mask0 : ℕ → Bool) (k m j : ℕ)
    (hkm : k ≤ m) (h : distFilterMask xy d2v mask0 m j = true) :
    distFilterMask xy d2v mask0 k j = true := by
  induction m with
  | zero => simpa [Nat.le_zero.mp hkm] using h
  | succ n ih =>
    rcases Nat.lt_or_ge k (n + 1) with hlt | hge
    · exact ih (Nat.lt_succ_iff.mp hlt) (distFilterMask_succ_le xy d2v mask0 n j h)
    · have : k = n + 1 := le_antisymm hkm hge
      simpa [this] using h

theorem distFilterMask_le_init (xy : ℕ → ℚ × ℚ) (d2v : ℚ) (mask0 : ℕ → Bool) (k j : ℕ)
    (h : distFilterMask xy d2v mask0 k j = true) : mask0 j = true :=
  distFilterMask_mono xy d2v mask0 0 k j (Nat.zero_le k) h

/-
At step `i` (when point `i` is still masked) every masked point `j ≠ i`
survives only if it is at squared distance at least `d2v` from point `i`.
-/
theorem distFilterMask_pair (xy : ℕ → ℚ × ℚ) (d2v : ℚ) (mask0 : ℕ → Bool) (n i j : ℕ)
    (hij : i ≠ j) (hin : i < n) (hi : distFilterMask xy d2v mask0 n i = true)
    (hj : distFilterMask xy d2v mask0 n j = true) :
    d2v ≤ dist2 (xy i) (xy j) := by
  have hstepj : distFilterMask xy d2v mask0 (i + 1) j = true :=
    distFilterMask_mono xy d2v mask0 (i + 1) n j hin hj
  have hstepi : distFilterMask xy d2v mask0 i i = true :=
    distFilterMask_mono xy d2v mask0 i n i (Nat.le_of_lt hin) hi
  have : distFilterStep xy d2v (distFilterMask xy d2v mask0 i) i j = true := hstepj
  unfold distFilterStep at this
  simp only [hstepi, if_true] at this
  have hji : j ≠ i := fun h => hij h.symm
  simp only [hji, if_false, Bool.and_eq_true, decide_eq_true_eq] at this
  exact this.2

/-
If point `i` is retained and a later candidate `j > i` is too close to it,
then `j` is removed (it is false in the final mask).
-/
theorem distFilterMask_removes (xy : ℕ → ℚ × ℚ) (d2v : ℚ) (mask0 : ℕ → Bool) (n i j : ℕ)
    (hij : i ≠ j) (hin : i < n)
    (hi : distFilterMask xy d2v mask0 n i = true)
    (hclose : dist2 (xy i) (xy j) < d2v) :
    distFilterMask xy d2v mask0 n j = false := by
  by_contra h
  have hj : distFilterMask xy d2v mask0 n j = true := by
    cases hv : distFilterMask xy d2v mask0 n j
    · exact absurd hv h
    · rfl
  exact absurd (distFilterMask_pair xy d2v mask0 n i j hij hin hi hj) (not_le.mpr hclose)

/-
The first initially-masked candidate is always retained: steps before it are
skipped, its own step restores it, and any later step that could remove it is
itself skipped because its point was removed at the first candidate's step.
-/
theorem distFilterMask_first_seen (xy : ℕ → ℚ × ℚ) (d2v : ℚ) (mask0 : ℕ → Bool) (i : ℕ)
    (hi : mask0 i = true) (hmin : ∀ k, k < i → mask0 k = false) :
    ∀ n, distFilterMask xy d2v mask0 n i = true := by
  have hfrozen : ∀ k, k ≤ i → distFilterMask xy d2v mask0 k = mask0 := by
    intro k hk
    induction k with
    | zero => rfl
    | succ m ih =>
      have hm : m ≤ i := Nat.le_of_succ_le hk
      have hmi : m < i := hk
      show distFilterStep xy d2v (distFilterMask xy d2v mask0 m) m = mask0
      rw [ih hm]
      unfold distFilterStep
      simp [hmin m hmi]
  intro n
  induction n with
  | zero => simpa using hi
  | succ k ih =>
    rcases Nat.lt_or_ge k i with hki | hki
    · have : k + 1 ≤ i := hki
      rw [hfrozen (k + 1) this]; exact hi
    · show distFilterStep xy d2v (distFilterMask xy d2v mask0 k) k i = true
      unfold distFilterStep
      by_cases hmk : distFilterMask xy d2v mask0 k k = true
      · simp only [hmk, if_true]
        by_cases hik : i = k
        · simp [hik]
        · simp only [hik, if_false, ih, Bool.true_and]
          rcases Nat.lt_or_ge k i with hlt | hge
          · have := distFilterMask_le_init xy d2v mask0 k k hmk
            rw [hmin k hlt] at this
            exact absurd this (by simp)
          · have hik2 : i < k := lt_of_le_of_ne hge hik
            have hcond := distFilterMask_pair xy d2v mask0 k i k hik hik2
              (distFilterMask_mono xy d2v mask0 k k i (le_refl k) ih) hmk
            rw [dist2_comm] at hcond
            simp [hcond]
      · have : distFilterMask xy d2v mask0 k k = false := by
          cases hv : distFilterMask xy d2v mask0 k k
          · rfl
          · exact absurd hv hmk
        simp only [this]
        simpa using ih

/-
Once a candidate is still masked when its own step runs, it is retained for
ever: its step removes every masked point strictly within distance, so no
later step that is itself alive can remove it.
-/
theorem distFilterMask_persist (xy : ℕ → ℚ × ℚ) (d2v : ℚ) (mask0 : ℕ → Bool) (k : ℕ)
    (hk : distFilterMask xy d2v mask0 k k = true) :
    ∀ n, distFilterMask xy d2v mask0 n k = true := by
  have hsucc : distFilterMask xy d2v mask0 (k + 1) k = true := by
    show distFilterStep xy d2v (distFilterMask xy d2v mask0 k) k k = true
    unfold distFilterStep
    simp [hk]
  have hmain : ∀ m, k + 1 ≤ m → distFilterMask xy d2v mask0 m k = true := by
    intro m
    induction m with
    | zero => omega
    | succ p ih =>
      intro hp1
      rcases Nat.lt_or_ge p (k + 1) with hp | hp
      · have hpk : p = k := by omega
        subst hpk
        exact hsucc
      · have ihp := ih hp
        show distFilterStep xy d2v (distFilterMask xy d2v mask0 p) p k = true
        unfold distFilterStep
        by_cases hpp : distFilterMask xy d2v mask0 p p = true
        · simp only [hpp, if_true]
          have hkp : k ≠ p := by omega
          rw [if_neg hkp]
          have hmono : distFilterMask xy d2v mask0 (k + 1) p = true :=
            distFilterMask_mono xy d2v mask0 (k + 1) p p hp hpp
          have hd := distFilterMask_pair xy d2v mask0 (k + 1) k p (by omega) (by omega)
            hsucc hmono
          rw [dist2_comm] at hd
          simp [ihp, hd]
        · have hf : distFilterMask xy d2v mask0 p p = false := by
            cases hv : distFilterMask xy d2v mask0 p p
            · rfl
            · exact absurd hv hpp
          simp only [hf]
          simpa using ihp
  intro n
  rcases Nat.lt_or_ge n (k + 1) with hn | hn
  · exact distFilterMask_mono xy d2v mask0 n k k (by omega) hk
  · exact hmain n hn

/-
Completeness of the greedy selection: an initially-masked candidate that is
at distance at least `min_distance` from every earlier retained candidate is
itself retained.  Every step that could remove it before its own step runs is
either skipped (its point already removed) or belongs to a retained earlier
point, which by hypothesis is far enough away.
-/
theorem distFilterMask_retained (xy : ℕ → ℚ × ℚ) (d2v : ℚ) (mask0 : ℕ → Bool) (n i : ℕ)
    (hi : mask0 i = true)
    (h : ∀ j, j < i → distFilterMask xy d2v mask0 n j = true →
      d2v ≤ dist2 (xy j) (xy i)) :
    distFilterMask xy d2v mask0 n i = true := by
  have halive : ∀ k, k ≤ i → distFilterMask xy d2v mask0 k i = true := by
    intro k
    induction k with
    | zero => intro hz; exact hi
    | succ m ih =>
      intro hk
      have hm : m < i := hk
      have ihm := ih (Nat.le_of_lt hm)
      show distFilterStep xy d2v (distFilterMask xy d2v mask0 m) m i = true
      unfold distFilterStep
      by_cases hmm : distFilterMask xy d2v mask0 m m = true
      · simp only [hmm, if_true]
        have hne : i ≠ m := by omega
        rw [if_neg hne]
        have hfin : distFilterMask xy d2v mask0 n m = true :=
          distFilterMask_persist xy d2v mask0 m hmm n
        have hd := h m hm hfin
        simp [ihm, hd]
      · have hf : distFilterMask xy d2v mask0 m m = false := by
          cases hv : distFilterMask xy d2v mask0 m m
          · rfl
          · exact absurd hv hmm
        simp only [hf]
        simpa using ihm
  exact distFilterMask_persist xy d2v mask0 i (halive i le_rfl) n

/--
C5 (corrected): the minimum-distance filter retains only initially-masked
candidates; any two distinct retained candidates are at squared distance at
least `min_distance²`; an initially-masked candidate at distance at least
`min_distance` from every earlier retained candidate is retained
(completeness of the greedy selection, which in particular always retains the
earliest initially-masked candidate); and a later candidate strictly within
`min_distance` of a retained point is removed.  The original claim that the
first-seen member of every mutually close group is retained is refuted by
`C5_counterexample`.
-/
theorem C5_distance_filter (xy : ℕ → ℚ × ℚ) (d : ℚ) (mask0 : ℕ → Bool) (n : ℕ) :
    (∀ j, distFilterMask xy (d * d) mask0 n j = true → mask0 j = true) ∧
    (∀ i j, i < n → j < n → i ≠ j →
      distFilterMask xy (d * d) mask0 n i = true →
      distFilterMask xy (d * d) mask0 n j = true →
      d * d ≤ dist2 (xy i) (xy j)) ∧
    (∀ i, mask0 i = true →
      (∀ j, j < i → distFilterMask xy (d * d) mask0 n j = true →
        d * d ≤ dist2 (xy j) (xy i)) →
      distFilterMask xy (d * d) mask0 n i = true) ∧
    (∀ i j, i < n → i ≠ j → distFilterMask xy (d * d) mask0 n i = true →
      dist2 (xy i) (xy j) < d * d → distFilterMask xy (d * d) mask0 n j = false) := by
  refine ⟨fun j => distFilterMask_le_init xy (d * d) mask0 n j, ?_, ?_, ?_⟩
  · intro i j hin hjn hij hi hj
    rcases Nat.lt_or_ge i j with hlt | hge
    · exact distFilterMask_pair xy (d * d) mask0 n i j hij hin hi hj
    · have hji : j < i := lt_of_le_of_ne hge hij.symm
      rw [dist2_comm]
      exact distFilterMask_pair xy (d * d) mask0 n j i (fun h => hij h.symm) hjn hj hi
  · intro i hi hfar
    exact distFilterMask_retained xy (d * d) mask0 n i hi hfar
  · intro i j hin hij hi hclose
    exact distFilterMask_removes xy (d * d) mask0 n i j hij hin hi hclose

def xyW : ℕ → ℚ × ℚ
  | 0 => (0, 0)
  | 1 => (0, 1)
  | 2 => (5, 5)
  | _ => (0, 0)

theorem C5_distance_filter_witness :
    distFilterMask xyW (2 * 2) (fun _ => true) 3 0 = true ∧
    distFilterMask xyW (2 * 2) (fun _ => true) 3 2 = true ∧
    2 * 2 ≤ dist2 (xyW 0) (xyW 2) := by
  have h0 : distFilterMask xyW (2 * 2) (fun _ => true) 3 0 = true := by
    norm_num [distFilterMask, distFilterStep, dist2, xyW]
  have h2 : distFilterMask xyW (2 * 2) (fun _ => true) 3 2 = true := by
    norm_num [distFilterMask, distFilterStep, dist2, xyW]
  exact ⟨h0, h2, (C5_distance_filter xyW 2 (fun _ => true) 3).2.1 0 2
    (by decide) (by decide) (by decide) h0 h2⟩

def xyC : ℕ → ℚ × ℚ
  | 0 => (0, 0)
  | 1 => (0, 9 / 5)
  | 2 => (0, 17 / 5)
  | _ => (0, 0)

/--
C5 counterexample: with candidates (0,0), (0,9/5), (0,17/5) all initially
masked and min_distance 2, candidates 1 and 2 are a mutually close group
(squared distance 64/25 < 4), yet the group's first-seen member 1 is removed
by the earlier retained point 0 (squared distance 81/25 < 4) while the later
member 2 is retained — the original claim that the first-seen candidate of
every mutually close group is always retained is false of the code.
-/
theorem C5_counterexample :
    dist2 (xyC 1) (xyC 2) < 2 * 2 ∧
    distFilterMask xyC (2 * 2) (fun _ => true) 3 1 = false ∧
    distFilterMask xyC (2 * 2) (fun _ => true) 3 2 = true := by
  refine ⟨by norm_num [dist2, xyC], ?_, ?_⟩
  · norm_num [distFilterMask, distFilterStep, dist2, xyC]
  · norm_num [distFilterMask, distFilterStep, dist2, xyC]

/-
Section 2: the candidate count of the `random` point method.

Python (tessellate.py, line 172):
  count = int((delta_x / min_distance + 1) * (delta_y / min_distance + 1) * 10)

`int()` truncates toward zero; `pyInt` models that on exact rationals.
-/

def pyInt (x : ℚ) : ℤ := if 0 ≤ x then ⌊x⌋ else ⌈x⌉

def random_point_count (deltaX deltaY minDistance : ℚ) : ℤ :=
  pyInt ((deltaX / minDistance + 1) * (deltaY / minDistance + 1) * 10)

/--
Modelled from the spec's words (for comparison only): the spec claims the
`random_uniform` strategy draws `⌈(Δx/d + 1)·(Δy/d + 1)·10⌉` points.
-/
def random_point_count_spec (deltaX deltaY minDistance : ℚ) : ℤ :=
  ⌈(deltaX / minDistance + 1) * (deltaY / minDistance + 1) * 10⌉

/--
C6 counterexample: with bounding-box extents Δx = Δy = 1 and min_distance = 2
the expression equals 22.5; Python's `int()` truncation yields 22 candidate
draws while the claimed ceiling would be 23.
-/
theorem C6_count_counterexample :
    random_point_count 1 1 2 ≠ random_point_count_spec 1 1 2 := by
  have h1 : random_point_count 1 1 2 = 22 := by
    unfold random_point_count pyInt
    norm_num
  have h2 : random_point_count_spec 1 1 2 = 23 := by
    unfold random_point_count_spec
    rw [show ((1 : ℚ) / 2 + 1) * ((1 : ℚ) / 2 + 1) * 10 = 45 / 2 by norm_num]
    rw [Int.ceil_eq_iff]
    norm_num
  rw [h1, h2]
  decide

/--
C6 (amended): the `random` strategy draws `⌊(Δx/d + 1)·(Δy/d + 1)·10⌋`
candidates (floor — `int()` truncation of a nonnegative value — not ceiling),
and only candidates whose initial mask bit (containment in the region) is set
can be retained by the subsequent distance-thinning.
-/
theorem C6_random_count (deltaX deltaY minDistance : ℚ)
    (hx : 0 ≤ deltaX) (hy : 0 ≤ deltaY) (hd : 0 < minDistance)
    (insideRegion : ℕ → Bool) (xy : ℕ → ℚ × ℚ) (n j : ℕ) :
    random_point_count deltaX deltaY minDistance =
      ⌊(deltaX / minDistance + 1) * (deltaY / minDistance + 1) * 10⌋ ∧
    (distFilterMask xy (minDistance * minDistance) insideRegion n j = true →
      insideRegion j = true) := by
  constructor
  · unfold random_point_count pyInt
    have h1 : (0 : ℚ) ≤ deltaX / minDistance := div_nonneg hx (le_of_lt hd)
    have h2 : (0 : ℚ) ≤ deltaY / minDistance := div_nonneg hy (le_of_lt hd)
    have : (0 : ℚ) ≤ (deltaX / minDistance + 1) * (deltaY / minDistance + 1) * 10 := by
      positivity
    simp [this]
  · exact distFilterMask_le_init xy (minDistance * minDistance) insideRegion n j

theorem C6_random_count_witness :
    random_point_count 3 4 1 = ⌊((3 : ℚ) / 1 + 1) * ((4 : ℚ) / 1 + 1) * 10⌋ :=
  (C6_random_count 3 4 1 (by norm_num) (by norm_num) (by norm_num)
    (fun _ => true) (fun _ => (0, 0)) 0 0).1

/-
Section 3: zonal statistics for one cell/layer pair.

Python (tessellate.py, lines 227-252): an empty cell geometry emits a row of
NaN; otherwise the pixel buffer is filtered by the in-cell mask and by
`!= nodata`, and if nothing remains the row is again all NaN, else the head
statistics (aggregates, percentiles, custom formulas — modelled as opaque
reducer functions over the filtered data) are followed by the per-value
occupancy percentages `100 * (cell_data == value).sum() / cell_data.size`.
NaN is modelled as `none : Option ℚ`.
-/

structure RasterPixel where
  value : ℚ
  inCell : Bool
deriving DecidableEq

def filtered_cell_data (pixels : List RasterPixel) (nodata : ℚ) : List ℚ :=
  (pixels.filter (fun p => p.inCell && decide (p.value ≠ nodata))).map RasterPixel.value

def value_occupancy (data : List ℚ) (v : ℚ) : ℚ :=
  100 * ((data.count v : ℚ) / (data.length : ℚ))

def cell_layer_stats (cellIsEmpty : Bool) (pixels : List RasterPixel) (nodata : ℚ)
    (head : List (List ℚ → ℚ)) (valuePercs : List ℚ) : List (Option ℚ) :=
  if cellIsEmpty then List.replicate (head.length + valuePercs.length) none
  else
    let data := filtered_cell_data pixels nodata
    if data.length ≠ 0 then
      head.map (fun f => some (f data)) ++ valuePercs.map (fun v => some (value_occupancy data v))
    else
      List.replicate (head.length + valuePercs.length) none

/--
C7: if the cell geometry is empty, or if no pixel survives the in-cell mask
and the nodata exclusion, every requested output for the cell/layer pair is
NaN; and the filtered data (on which all statistics of non-empty cells are
computed) contains no nodata pixel.
-/
theorem C7_nan_semantics (cellIsEmpty : Bool) (pixels : List RasterPixel) (nodata : ℚ)
    (head : List (List ℚ → ℚ)) (valuePercs : List ℚ)
    (hdeg : cellIsEmpty = true ∨ filtered_cell_data pixels nodata = []) :
    (∀ x ∈ cell_layer_stats cellIsEmpty pixels nodata head valuePercs, x = none) ∧
    nodata ∉ filtered_cell_data pixels nodata := by
  constructor
  · intro x hx
    unfold cell_layer_stats at hx
    rcases hdeg with hempty | hdata
    · rw [hempty] at hx
      simp only [if_true] at hx
      exact List.eq_of_mem_replicate hx
    · by_cases hc : cellIsEmpty
      · rw [hc] at hx
        simp only [if_true] at hx
        exact List.eq_of_mem_replicate hx
      · simp only [hc, if_false, hdata] at hx
        simp only [List.length_nil, ne_eq, not_true_eq_false, if_false] at hx
        exact List.eq_of_mem_replicate hx
  · intro hmem
    unfold filtered_cell_data at hmem
    rcases List.mem_map.mp hmem with ⟨p, hp, hpv⟩
    rcases List.mem_filter.mp hp with ⟨_, hcond⟩
    rw [Bool.and_eq_true, decide_eq_true_eq] at hcond
    exact hcond.2 hpv

theorem C7_nan_semantics_witness :
    (∀ x ∈ cell_layer_stats false [⟨7, false⟩, ⟨255, true⟩] 255 [] [0], x = none) ∧
    (255 : ℚ) ∉ filtered_cell_data [⟨7, false⟩, ⟨255, true⟩] 255 :=
  C7_nan_semantics false [⟨7, false⟩, ⟨255, true⟩] 255 [] [0] (Or.inr (by decide))

/--
C9: for a non-empty cell/layer pair the value-occupancy column for the i-th
requested value `v` equals `100 * count(pixels = v) / count(valid pixels)`,
and when exactly half of the valid pixels equal `v` it is exactly 50.
-/
theorem C9_value_occupancy (pixels : List RasterPixel) (nodata : ℚ)
    (head : List (List ℚ → ℚ)) (valuePercs : List ℚ) (i : ℕ)
    (hi : i < valuePercs.length)
    (hne : filtered_cell_data pixels nodata ≠ []) :
    (cell_layer_stats false pixels nodata head valuePercs).get? (head.length + i) =
      some (some (value_occupancy (filtered_cell_data pixels nodata)
        (valuePercs.get ⟨i, hi⟩))) ∧
    ((filtered_cell_data pixels nodata).length =
        2 * (filtered_cell_data pixels nodata).count (valuePercs.get ⟨i, hi⟩) →
      value_occupancy (filtered_cell_data pixels nodata) (valuePercs.get ⟨i, hi⟩) = 50) := by
  constructor
  · unfold cell_layer_stats
    have hlen : (filtered_cell_data pixels nodata).length ≠ 0 := by
      simpa [List.length_eq_zero] using hne
    simp only [Bool.false_eq_true, if_false, hlen, ne_eq, not_false_eq_true, if_true]
    rw [List.get?_append_right (by simp)]
    simp only [List.length_map, Nat.add_sub_cancel_left]
    rw [List.get?_map]
    rw [List.get?_eq_get hi]
    rfl
  · intro hhalf
    have hlen : (filtered_cell_data pixels nodata).length ≠ 0 := by
      simpa [List.length_eq_zero] using hne
    set c := (filtered_cell_data pixels nodata).count (valuePercs.get ⟨i, hi⟩) with hc
    have hcpos : c ≠ 0 := by
      intro h0
      rw [h0] at hhalf
      exact hlen (by omega)
    unfold value_occupancy
    rw [← hc, hhalf]
    have : ((2 * c : ℕ) : ℚ) = 2 * (c : ℚ) := by push_cast; ring
    rw [this]
    have hcq : (c : ℚ) ≠ 0 := Nat.cast_ne_zero.mpr hcpos
    field_simp
    ring

theorem C9_value_occupancy_witness :
    value_occupancy (filtered_cell_data
      [⟨0, true⟩, ⟨3, true⟩, ⟨0, true⟩, ⟨255, true⟩, ⟨7, true⟩, ⟨9, false⟩] 255) 0 = 50 :=
  (C9_value_occupancy [⟨0, true⟩, ⟨3, true⟩, ⟨0, true⟩, ⟨255, true⟩, ⟨7, true⟩, ⟨9, false⟩]
    255 [] [0] 0 (by decide) (by decide)).2 (by decide)

/-
Section 4: the sampling / tessellation method dispatch.

Python (tessellate.py, lines 149-192): inside the per-split loop the point
method is dispatched first ('direct' / 'tif' / 'random', otherwise a
diagnostic is printed and `tessellate` returns immediately, writing no output
file); then the polygon method ('voronoi' / 'delaunay', same failure shape).
Before the loop, a valid cache file short-circuits the run (lines 106-107).
The loop body runs once per split geometry, so with at least one split
geometry an unknown method aborts at the first iteration; the eventual
`write_file` calls at lines 358-361 are never reached.
-/

inductive TessellateOutcome
  | cachedSkip
  | abortedBadPointMethod
  | abortedBadPolygonMethod
  | wroteOutput
deriving DecidableEq

def pointMethods : List String := ["direct", "tif", "random"]

def polygonMethods : List String := ["voronoi", "delaunay"]

def tessellate_outcome (cacheValid : Bool) (pointMethod polygonMethod : String)
    (splitCount : ℕ) : TessellateOutcome :=
  if cacheValid then .cachedSkip
  else if splitCount = 0 then .wroteOutput
  else if pointMethod = "direct" ∨ pointMethod = "tif" ∨ pointMethod = "random" then
    if polygonMethod = "voronoi" ∨ polygonMethod = "delaunay" then .wroteOutput
    else .abortedBadPolygonMethod
  else .abortedBadPointMethod

def reports_diagnostic : TessellateOutcome → Bool
  | .abortedBadPointMethod => true
  | .abortedBadPolygonMethod => true
  | _ => false

def writes_output_file : TessellateOutcome → Bool
  | .wroteOutput => true
  | _ => false

/--
C8: when the run reaches the sampling stage (no valid cache, at least one
split geometry) and either the point method is not one of
'direct'/'tif'/'random' or the polygon method is not one of
'voronoi'/'delaunay', the run aborts: a diagnostic is reported and no output
file is produced.
-/
theorem C8_unknown_method_aborts (cacheValid : Bool) (pointMethod polygonMethod : String)
    (splitCount : ℕ) (hcache : cacheValid = false) (hsplit : splitCount ≠ 0)
    (hbad : pointMethod ∉ pointMethods ∨ polygonMethod ∉ polygonMethods) :
    reports_diagnostic (tessellate_outcome cacheValid pointMethod polygonMethod splitCount) =
      true ∧
    writes_output_file (tessellate_outcome cacheValid pointMethod polygonMethod splitCount) =
      false := by
  subst hcache
  unfold tessellate_outcome
  simp only [Bool.false_eq_true, if_false, hsplit]
  rcases hbad with hpt | hpoly
  · have : ¬(pointMethod = "direct" ∨ pointMethod = "tif" ∨ pointMethod = "random") := by
      intro h
      apply hpt
      unfold pointMethods
      rcases h with h | h | h <;> simp [h]
    simp [this, reports_diagnostic, writes_output_file]
  · by_cases hpt : pointMethod = "direct" ∨ pointMethod = "tif" ∨ pointMethod = "random"
    · have : ¬(polygonMethod = "voronoi" ∨ polygonMethod = "delaunay") := by
        intro h
        apply hpoly
        unfold polygonMethods
        rcases h with h | h <;> simp [h]
      simp [hpt, this, reports_diagnostic, writes_output_file]
    · simp [hpt, reports_diagnostic, writes_output_file]

theorem C8_unknown_method_aborts_witness :
    reports_diagnostic (tessellate_outcome false "hexgrid" "voronoi" 4) = true ∧
    writes_output_file (tessellate_outcome false "hexgrid" "voronoi" 4) = false :=
  C8_unknown_method_aborts false "hexgrid" "voronoi" 4 rfl (by decide)
    (Or.inl (by decide))

/-
Section 5: Stage A — greedy initial bucketing of a split-key group.

Python (tessellate.py, lines 272-287):
  cells = sorted(cells, key=lambda cell: cell[0], reverse=True)
  chops = tuple([] for _ in range(len(divs) + 1))
  chop_index = 0
  chop_area = 0
  chop_limit = divs[chop_index]
  chop = chops[chop_index]
  for cell_value, cell_geom, cell_area, index in cells:
      chop_area += cell_area
      if chop_area > chop_limit and chop_area != cell_area:
          chop_index += 1
          chop_area = cell_area
          chop_limit = divs[chop_index] if chop_index < len(divs) else np.inf
          chop = chops[chop_index]
      chop.append((cell_value, cell_geom, cell_area, index, chop_index))

A group cell `(cell_value, cell_geom, cell_area, index)` (line 266; the first
component is the priority score `statistic_value * area_fraction`) is the
structure `GCell`, its geometry a finite set of sample points.  The walk over
the sorted list is `stageAAssign`; `chop_limit` is `divs[chop_index]` while
`chop_index < len(divs)` and `np.inf` (which no value exceeds) afterwards,
modelled by `exceedsDiv` returning `false` when the index is out of range.
-/

structure GCell where
  score : ℚ
  geom : Finset ℕ
  area : ℚ
  idx : ℕ
deriving DecidableEq

def exceedsDiv (divs : List ℚ) (ci : ℕ) (x : ℚ) : Bool :=
  match divs.get? ci with
  | some l => decide (l < x)
  | none => false

def stageAAssign (divs : List ℚ) : ℕ → ℚ → List GCell → List (GCell × ℕ)
  | _, _, [] => []
  | ci, ca, cell :: rest =>
    if exceedsDiv divs ci (ca + cell.area) && decide (ca + cell.area ≠ cell.area) then
      (cell, ci + 1) :: stageAAssign divs (ci + 1) cell.area rest
    else
      (cell, ci) :: stageAAssign divs ci (ca + cell.area) rest

def sort_cells (cells : List GCell) : List GCell :=
  cells.mergeSort (fun a b => decide (b.score ≤ a.score))

def stage_a_chops (divs : List ℚ) (cells : List GCell) : List (GCell × ℕ) :=
  stageAAssign divs 0 0 (sort_cells cells)

def chopAreaSum (l : List (GCell × ℕ)) (c : ℕ) : ℚ :=
  ((l.filter (fun p => p.2 == c)).map (fun p => p.1.area)).sum

def chopCount (l : List (GCell × ℕ)) (c : ℕ) : ℕ :=
  (l.filter (fun p => p.2 == c)).length

def overQuota (divs : List ℚ) (c : ℕ) (x : ℚ) : Prop :=
  ∃ l, divs.get? c = some l ∧ l < x

theorem exceedsDiv_iff (divs : List ℚ) (ci : ℕ) (x : ℚ) :
    exceedsDiv divs ci x = true ↔ overQuota divs ci x := by
  unfold exceedsDiv overQuota
  cases h : divs.get? ci with
  | none => simp [h]
  | some l => simp [h]

theorem chopAreaSum_nil (c : ℕ) : chopAreaSum [] c = 0 := rfl

theorem chopCount_nil (c : ℕ) : chopCount [] c = 0 := rfl

theorem chopAreaSum_cons_self (cell : GCell) (j : ℕ) (l : List (GCell × ℕ)) :
    chopAreaSum ((cell, j) :: l) j = cell.area + chopAreaSum l j := by
  unfold chopAreaSum
  simp

theorem chopAreaSum_cons_ne (cell : GCell) (j c : ℕ) (l : List (GCell × ℕ)) (h : j ≠ c) :
    chopAreaSum ((cell, j) :: l) c = chopAreaSum l c := by
  unfold chopAreaSum
  simp [h]

theorem chopCount_cons_self (cell : GCell) (j : ℕ) (l : List (GCell × ℕ)) :
    chopCount ((cell, j) :: l) j = 1 + chopCount l j := by
  unfold chopCount
  simp [Nat.add_comm]

theorem chopCount_cons_ne (cell : GCell) (j c : ℕ) (l : List (GCell × ℕ)) (h : j ≠ c) :
    chopCount ((cell, j) :: l) c = chopCount l c := by
  unfold chopCount
  simp [h]

theorem chopAreaSum_of_count_zero (l : List (GCell × ℕ)) (c : ℕ)
    (h : chopCount l c = 0) : chopAreaSum l c = 0 := by
  unfold chopCount at h
  unfold chopAreaSum
  rw [List.length_eq_zero] at h
  rw [h]
  rfl

theorem stageAAssign_nil (divs : List ℚ) (ci : ℕ) (ca : ℚ) :
    stageAAssign divs ci ca [] = [] := rfl

theorem stageAAssign_cons (divs : List ℚ) (ci : ℕ) (ca : ℚ) (cell : GCell)
    (rest : List GCell) :
    stageAAssign divs ci ca (cell :: rest) =
      if exceedsDiv divs ci (ca + cell.area) && decide (ca + cell.area ≠ cell.area) then
        (cell, ci + 1) :: stageAAssign divs (ci + 1) cell.area rest
      else
        (cell, ci) :: stageAAssign divs ci (ca + cell.area) rest := rfl

/-
The running invariant of the Stage A walk: writing `ca` for the running area
of the current tranche `ci` and `cnt` for the number of cells already placed
into it, either the current tranche holds exactly one cell or its running
area does not exceed its quota; this propagates to every tranche of the
remaining walk.
-/
theorem stageAAssign_quota (divs : List ℚ) (hdiv : ∀ d ∈ divs, 0 ≤ d) :
    ∀ (rest : List GCell) (ci : ℕ) (ca : ℚ) (cnt : ℕ),
      (∀ cl ∈ rest, 0 < cl.area) → 0 < ca →
      (cnt = 1 ∨ ¬overQuota divs ci ca) →
      ∀ c,
        (c < ci → chopCount (stageAAssign divs ci ca rest) c = 0) ∧
        (c = ci → ¬overQuota divs c (ca + chopAreaSum (stageAAssign divs ci ca rest) c) ∨
          cnt + chopCount (stageAAssign divs ci ca rest) c = 1) ∧
        (ci < c → ¬overQuota divs c (chopAreaSum (stageAAssign divs ci ca rest) c) ∨
          chopCount (stageAAssign divs ci ca rest) c = 1) := by
  intro rest
  induction rest with
  | nil =>
    intro ci ca cnt _ hca hinv c
    rw [stageAAssign_nil]
    refine ⟨fun _ => chopCount_nil c, fun hc => ?_, fun _ => ?_⟩
    · subst hc
      rw [chopAreaSum_nil, chopCount_nil, add_zero, Nat.add_zero]
      rcases hinv with h | h
      · exact Or.inr h
      · exact Or.inl h
    · rw [chopAreaSum_nil, chopCount_nil]
      left
      rintro ⟨l, hl, hlt⟩
      have : l ∈ divs := List.get?_mem hl
      exact absurd hlt (not_lt.mpr (hdiv l this))
  | cons cell rest ih =>
    intro ci ca cnt hpos hca hinv c
    have hcell : 0 < cell.area := hpos cell (List.mem_cons_self cell rest)
    have hrest : ∀ cl ∈ rest, 0 < cl.area := fun cl hcl => hpos cl (List.mem_cons_of_mem _ hcl)
    by_cases hcond :
        (exceedsDiv divs ci (ca + cell.area) && decide (ca + cell.area ≠ cell.area)) = true
    · have hout : stageAAssign divs ci ca (cell :: rest) =
          (cell, ci + 1) :: stageAAssign divs (ci + 1) cell.area rest := by
        rw [stageAAssign_cons, if_pos hcond]
      have ihrec := ih (ci + 1) cell.area 1 hrest hcell (Or.inl rfl)
      refine ⟨fun hc => ?_, fun hc => ?_, fun hc => ?_⟩
      · rw [hout, chopCount_cons_ne _ _ _ _ (by omega)]
        exact (ihrec c).1 (by omega)
      · subst hc
        rw [hout, chopCount_cons_ne _ _ _ _ (by omega),
          chopAreaSum_cons_ne _ _ _ _ (by omega)]
        have h0 : chopCount (stageAAssign divs (c + 1) cell.area rest) c = 0 :=
          (ihrec c).1 (by omega)
        rw [h0, chopAreaSum_of_count_zero _ _ h0, add_zero, Nat.add_zero]
        rcases hinv with h | h
        · exact Or.inr h
        · exact Or.inl h
      · rcases Nat.lt_or_ge c (ci + 1 + 1) with hlt | hge
        · have hceq : c = ci + 1 := by omega
          subst hceq
          rw [hout, chopCount_cons_self, chopAreaSum_cons_self]
          rcases (ihrec (ci + 1)).2.1 rfl with h | h
          · exact Or.inl h
          · right
            omega
        · rw [hout, chopCount_cons_ne _ _ _ _ (by omega),
            chopAreaSum_cons_ne _ _ _ _ (by omega)]
          exact (ihrec c).2.2 (by omega)
    · have hout : stageAAssign divs ci ca (cell :: rest) =
          (cell, ci) :: stageAAssign divs ci (ca + cell.area) rest := by
        rw [stageAAssign_cons, if_neg hcond]
      have hno : ¬overQuota divs ci (ca + cell.area) := by
        intro hover
        have h1 : exceedsDiv divs ci (ca + cell.area) = true := (exceedsDiv_iff _ _ _).mpr hover
        have h2 : ca + cell.area = cell.area := by
          by_contra hne
          exact hcond (by simp [h1, hne])
        have : ca = 0 := by linarith
        exact absurd this (ne_of_gt hca)
      have ihrec := ih ci (ca + cell.area) (cnt + 1) hrest (by linarith) (Or.inr hno)
      refine ⟨fun hc => ?_, fun hc => ?_, fun hc => ?_⟩
      · rw [hout, chopCount_cons_ne _ _ _ _ (by omega)]
        exact (ihrec c).1 hc
      · subst hc
        rw [hout, chopCount_cons_self, chopAreaSum_cons_self]
        rcases (ihrec c).2.1 rfl with h | h
        · left
          rw [← add_assoc]
          exact h
        · right
          omega
      · rw [hout, chopCount_cons_ne _ _ _ _ (by omega),
          chopAreaSum_cons_ne _ _ _ _ (by omega)]
        exact (ihrec c).2.2 hc

theorem not_overQuota_iff (divs : List ℚ) (c : ℕ) (x : ℚ) (hc : c < divs.length) :
    ¬overQuota divs c x ↔ x ≤ divs.getD c 0 := by
  unfold overQuota
  rw [List.getD_eq_getElem?_getD, List.getElem?_eq_getElem hc]
  constructor
  · intro h
    simp only [Option.getD_some]
    by_contra hlt
    exact h ⟨divs[c], by rw [List.get?_eq_getElem?, List.getElem?_eq_getElem hc], not_le.mp hlt⟩
  · rintro hle ⟨l, hl, hlt⟩
    rw [List.get?_eq_getElem?, List.getElem?_eq_getElem hc] at hl
    cases hl
    simp only [Option.getD_some] at hle
    exact absurd hlt (not_lt.mpr hle)

/--
C2: after the Stage A greedy bucketing of a split-key group (cells sorted by
descending priority score), every non-overflow tranche `c < K` either has
cumulative area within its quota `divs[c]` or consists of exactly one cell —
the cell whose own addition first crossed the threshold; a crossing caused by
a non-first cell instead advances the tranche, the crossing cell starting the
next tranche with its own area.
-/
theorem C2_stage_a_quota (divs : List ℚ) (cells : List GCell)
    (hpos : ∀ cl ∈ cells, 0 < cl.area) (hdiv : ∀ d ∈ divs, 0 ≤ d)
    (c : ℕ) (hc : c < divs.length) :
    chopAreaSum (stage_a_chops divs cells) c ≤ divs.getD c 0 ∨
    chopCount (stage_a_chops divs cells) c = 1 := by
  have hposs : ∀ cl ∈ sort_cells cells, 0 < cl.area := by
    intro cl hcl
    exact hpos cl ((List.mergeSort_perm cells _).mem_iff.mp hcl)
  unfold stage_a_chops
  cases hsc : sort_cells cells with
  | nil =>
    simp only [stageAAssign, chopAreaSum_nil, chopCount_nil]
    left
    have : (0 : ℚ) ≤ divs.getD c 0 := by
      rw [List.getD_eq_getElem?_getD, List.getElem?_eq_getElem hc]
      exact hdiv _ (List.getElem_mem hc)
    exact this
  | cons cell rest =>
    have hcell : 0 < cell.area := by
      apply hposs
      rw [hsc]
      exact List.mem_cons_self cell rest
    have hrest : ∀ cl ∈ rest, 0 < cl.area := by
      intro cl hcl
      apply hposs
      rw [hsc]
      exact List.mem_cons_of_mem _ hcl
    have hout : stageAAssign divs 0 0 (cell :: rest) =
        (cell, 0) :: stageAAssign divs 0 (0 + cell.area) rest := by
      rw [stageAAssign_cons, if_neg]
      simp
    rw [hout]
    have hmain := stageAAssign_quota divs hdiv rest 0 (0 + cell.area) 1 hrest
      (by linarith) (Or.inl rfl) c
    rcases Nat.eq_zero_or_pos c with hc0 | hcpos
    · subst hc0
      rw [chopCount_cons_self, chopAreaSum_cons_self]
      rcases hmain.2.1 rfl with h | h
      · left
        rw [not_overQuota_iff divs 0 _ hc] at h
        linarith
      · right
        omega
    · rw [chopCount_cons_ne _ _ _ _ (by omega), chopAreaSum_cons_ne _ _ _ _ (by omega)]
      rcases hmain.2.2 (by omega) with h | h
      · left
        rw [not_overQuota_iff divs c _ hc] at h
        exact h
      · right
        exact h

def cellsW : List GCell :=
  [⟨3, {0}, 3, 0⟩, ⟨2, {1}, 2, 1⟩, ⟨1, {2}, 2, 2⟩]

theorem C2_stage_a_quota_witness :
    chopAreaSum (stage_a_chops [4, 4] cellsW) 0 ≤ ([(4 : ℚ), 4]).getD 0 0 ∨
    chopCount (stage_a_chops [4, 4] cellsW) 0 = 1 :=
  C2_stage_a_quota [4, 4] cellsW (by decide) (by decide) 0 (by decide)

/-
Section 6: the chop-optimization machinery (Stage B / Stage C).

The adjacency graph, the cluster search, the demotion/promotion candidate
enumeration and the per-tranche improvement loop of tessellate.py
(lines 40-98 and 288-352) are embedded below.  Cell indices are the global
`idx` field; `nb : ℕ → Finset ℕ` is the `neighbors` defaultdict.  Python
iterates over hash sets in unspecified order; the model iterates in ascending
order (`Finset.sort`, `Finset.min'`), which is one admissible realization of
that order, and no theorem below depends on the choice.
-/

/-
`_non_neighbor_combinations` (lines 40-61): enumerate `count`-subsets of the
cluster tuple in lexicographic (itertools.combinations) order; the first
combination is yielded unconditionally, every later one only if no member is
a neighbor of an earlier member.
-/

def combinations {α : Type} : ℕ → List α → List (List α)
  | 0, _ => [[]]
  | _ + 1, [] => []
  | n + 1, x :: xs => ((combinations n xs).map (fun c => x :: c)) ++ combinations (n + 1) xs

def pairwise_non_neighbor (l : List ℕ) (nb : ℕ → Finset ℕ) : Bool :=
  decide (l.Pairwise (fun a b => b ∉ nb a))

def non_neighbor_combinations (cluster : List ℕ) (count : ℕ) (nb : ℕ → Finset ℕ) :
    List (List ℕ) :=
  if count > cluster.length then []
  else
    match combinations count cluster with
    | [] => []
    | first :: rest => first :: rest.filter (fun l => pairwise_non_neighbor l nb)

/-
`_iter_cluster_candidates` (lines 64-65): all subset sizes from 1 up to
(cluster size - 1).
-/
def iter_cluster_candidates (cluster : Finset ℕ) (nb : ℕ → Finset ℕ) : List (List ℕ) :=
  (List.range' 1 (cluster.card - 1)).flatMap
    (fun count => non_neighbor_combinations (cluster.sort (· ≤ ·)) count nb)

/-
`_iter_candidates` (lines 68-69): itertools.product across the per-cluster
candidate streams.
-/
def listProduct {α : Type} : List (List α) → List (List α)
  | [] => [[]]
  | l :: ls => l.flatMap (fun x => (listProduct ls).map (fun c => x :: c))

/-
`_has_chop_clusters` (lines 77-78).
-/
def has_chop_clusters (chopSet : Finset ℕ) (nb : ℕ → Finset ℕ) : Bool :=
  (chopSet.sort (· ≤ ·)).any (fun i => decide ((nb i ∩ chopSet).Nonempty))

def finsetListUnion (l : List (Finset ℕ)) : Finset ℕ :=
  l.foldr (fun s t => s ∪ t) ∅

/-
`_iter_demotion_candidates` (lines 72-74): `free` is the chop set minus all
cluster members; each product combination is united with `free` and kept only
if the union has no internal adjacency; the demoted set is the complement.
-/
def iter_demotion_candidates (chopSet : Finset ℕ) (clusters : List (Finset ℕ))
    (nb : ℕ → Finset ℕ) : List (Finset ℕ × Finset ℕ) :=
  (listProduct (clusters.map (fun cl => iter_cluster_candidates cl nb))).filterMap
    (fun combo =>
      let cand := (chopSet \ finsetListUnion clusters) ∪
        finsetListUnion (combo.map List.toFinset)
      if has_chop_clusters cand nb then none else some (cand, chopSet \ cand))

/-
`_get_chop_clusters` (lines 81-98): repeatedly pop an element of the working
set; if it has no neighbor inside the chop set it is skipped (a free
singleton), else its entire flood-filled component is collected as a cluster
and removed from the working set.  `floodFill` is the inner while loop
(cluster, _neighbors); fuel arguments bound the loops (they are always
sufficient, see the lemmas below).
-/

def floodFill (nb : ℕ → Finset ℕ) (chopSet : Finset ℕ) :
    ℕ → Finset ℕ → Finset ℕ → Finset ℕ
  | 0, cluster, _ => cluster
  | fuel + 1, cluster, frontier =>
    if h : frontier.Nonempty then
      floodFill nb chopSet fuel (insert (frontier.min' h) cluster)
        (((frontier.erase (frontier.min' h)) ∪ (nb (frontier.min' h) ∩ chopSet)) \
          insert (frontier.min' h) cluster)
    else cluster

def getChopClustersAux (nb : ℕ → Finset ℕ) (chopSet : Finset ℕ) :
    ℕ → Finset ℕ → List (Finset ℕ)
  | 0, _ => []
  | fuel + 1, rem =>
    if h : rem.Nonempty then
      if (nb (rem.min' h) ∩ chopSet) = ∅ then
        getChopClustersAux nb chopSet fuel (rem.erase (rem.min' h))
      else
        floodFill nb chopSet (chopSet.card + 1) {rem.min' h} (nb (rem.min' h) ∩ chopSet) ::
          getChopClustersAux nb chopSet fuel
            (rem \ floodFill nb chopSet (chopSet.card + 1) {rem.min' h}
              (nb (rem.min' h) ∩ chopSet))
    else []

def get_chop_clusters (chopSet : Finset ℕ) (nb : ℕ → Finset ℕ) : List (Finset ℕ) :=
  getChopClustersAux nb chopSet chopSet.card chopSet

/-
Python `max(xs, key=k)`: fold keeping the current maximum, replacing it only
on a strictly greater key, so ties resolve to the first-found element.
-/
def maxByKey {α : Type} (key : α → ℚ) : List α → Option α
  | [] => none
  | x :: xs => some (xs.foldl (fun b y => if key b < key y then y else b) x)

/-
The promotion accumulation (lines 309-321): starting from `start`, keep
adding the smallest compatible pool element while the accumulated area stays
within the limit; adding an element removes it and its neighbors from the
pool; the first overflow stops the whole accumulation.
-/
def promoteStep (nb : ℕ → Finset ℕ) (area : ℕ → ℚ) (limit : ℚ) :
    ℕ → Finset ℕ → Finset ℕ → ℚ → ℕ → Finset ℕ
  | 0, _, cand, _, _ => cand
  | fuel + 1, pc, cand, acc, idx =>
    if pc.Nonempty then
      if limit < acc + area idx then cand
      else
        if h : ((pc.erase idx) \ nb idx).Nonempty then
          promoteStep nb area limit fuel ((pc.erase idx) \ nb idx) (insert idx cand)
            (acc + area idx) (((pc.erase idx) \ nb idx).min' h)
        else insert idx cand
    else cand

def promoteFrom (nb : ℕ → Finset ℕ) (area : ℕ → ℚ) (limit : ℚ) (pool : Finset ℕ)
    (keptArea : ℚ) (start : ℕ) : Finset ℕ :=
  promoteStep nb area limit pool.card pool ∅ keptArea start

/-
`set(itertools.chain.from_iterable(chops[chop_index + 1:]))`.
-/
def unionLater (ch : ℕ → Finset ℕ) (c K : ℕ) : Finset ℕ :=
  (List.range' (c + 1) (K - c)).foldr (fun j s => ch j ∪ s) ∅

/-
Promotion-candidate selection for one kept set (lines 303-324): the pool is
the union of the later tranches minus all neighbors of the kept set, sorted
ascending; each pool element starts one greedy accumulation; empty
accumulations are dropped and the best by summed value wins (0, ∅ if none).
-/
def promoSelect (nb : ℕ → Finset ℕ) (area value : ℕ → ℚ) (limit : ℚ)
    (ch : ℕ → Finset ℕ) (c K : ℕ) (kept : Finset ℕ) : ℚ × Finset ℕ :=
  let pool := (unionLater ch c K) \ kept.biUnion nb
  let cands := (pool.sort (· ≤ ·)).filterMap (fun start =>
    let cd := promoteFrom nb area limit pool (Finset.sum kept area) start
    if cd = ∅ then none else some (Finset.sum cd value, cd))
  match maxByKey (fun p => p.1) cands with
  | some p => p
  | none => (0, ∅)

/-
One tranche of the Stage C loop (lines 299-326): enumerate demotion
candidates, attach the best promotion to each, and pick the combination of
maximal total value; `(0, chop_set, ∅, ∅)` is the fallback of line 326.
-/
def chooseCombo (nb : ℕ → Finset ℕ) (area value : ℕ → ℚ) (divs : List ℚ)
    (ch : ℕ → Finset ℕ) (c : ℕ) : ℚ × Finset ℕ × Finset ℕ × Finset ℕ :=
  match maxByKey (fun t => t.1)
      ((iter_demotion_candidates (ch c) (get_chop_clusters (ch c) nb) nb).map
        (fun kd =>
          (Finset.sum kd.1 value +
              (promoSelect nb area value (divs.getD c 0) ch c divs.length kd.1).1,
            kd.1, kd.2,
            (promoSelect nb area value (divs.getD c 0) ch c divs.length kd.1).2))) with
  | some t => t
  | none => (0, ch c, ∅, ∅)

/-
Applying the winning combination (lines 342-352): demoted cells move from
tranche `c` to the overflow tranche `K`; promoted cells are discarded from
their Stage-A tranche and from the overflow tranche, then added to `c`.
The per-element operations commute, so iterating the sets in ascending order
is an admissible realization of Python's set iteration.
-/

def set_erase (ch : ℕ → Finset ℕ) (j i : ℕ) : ℕ → Finset ℕ :=
  fun k => if k = j then (ch j).erase i else ch k

def set_insert (ch : ℕ → Finset ℕ) (j i : ℕ) : ℕ → Finset ℕ :=
  fun k => if k = j then insert i (ch j) else ch k

def demFold (c K : ℕ) (l : List ℕ) (ch : ℕ → Finset ℕ) : ℕ → Finset ℕ :=
  l.foldl (fun f i => set_insert (set_erase f c i) K i) ch

def apply_demotion (c K : ℕ) (dem : Finset ℕ) (ch : ℕ → Finset ℕ) : ℕ → Finset ℕ :=
  demFold c K (dem.sort (· ≤ ·)) ch

def promoFold (c K : ℕ) (initChop : ℕ → ℕ) (l : List ℕ) (ch : ℕ → Finset ℕ) :
    ℕ → Finset ℕ :=
  l.foldl (fun f i => set_insert (set_erase (set_erase f (initChop i) i) K i) c i) ch

def apply_promotion (c K : ℕ) (initChop : ℕ → ℕ) (promo : Finset ℕ)
    (ch : ℕ → Finset ℕ) : ℕ → Finset ℕ :=
  promoFold c K initChop (promo.sort (· ≤ ·)) ch

def stageCStep (nb : ℕ → Finset ℕ) (area value : ℕ → ℚ) (initChop : ℕ → ℕ)
    (divs : List ℚ) (ch : ℕ → Finset ℕ) (c : ℕ) : ℕ → Finset ℕ :=
  apply_promotion c divs.length initChop (chooseCombo nb area value divs ch c).2.2.2
    (apply_demotion c divs.length (chooseCombo nb area value divs ch c).2.2.1 ch)

/-
The per-group pipeline state (lines 288-298): lookup of a cell's fields by
its index (the `final` dict), the adjacency graph built from all O(n²)
geometry pairs (the loop at lines 292-298; the resulting symmetric relation
does not depend on the list order, so the model iterates the group list in
its given order), the initial tranche sets from the Stage A assignment, and
the Stage C fold over the tranches `0 .. K-1`.
-/

def area_of (cells : List GCell) (i : ℕ) : ℚ :=
  match cells.find? (fun cl => cl.idx == i) with
  | some cl => cl.area
  | none => 0

def value_of (cells : List GCell) (i : ℕ) : ℚ :=
  match cells.find? (fun cl => cl.idx == i) with
  | some cl => cl.score
  | none => 0

def geom_of (cells : List GCell) (i : ℕ) : Finset ℕ :=
  match cells.find? (fun cl => cl.idx == i) with
  | some cl => cl.geom
  | none => ∅

def add_edge (f : ℕ → Finset ℕ) (i j : ℕ) : ℕ → Finset ℕ :=
  fun k => if k = i then insert j (f i) else if k = j then insert i (f j) else f k

def add_edges_from (c : GCell) (rest : List GCell) (f : ℕ → Finset ℕ) : ℕ → Finset ℕ :=
  rest.foldl
    (fun g c2 => if (c.geom ∩ c2.geom).Nonempty then add_edge g c.idx c2.idx else g) f

def build_nb : List GCell → (ℕ → Finset ℕ) → (ℕ → Finset ℕ)
  | [], f => f
  | c :: rest, f => build_nb rest (add_edges_from c rest f)

def nb_of (cells : List GCell) : ℕ → Finset ℕ :=
  build_nb cells (fun _ => ∅)

def chopsInit (assigned : List (GCell × ℕ)) : ℕ → Finset ℕ :=
  fun j => ((assigned.filter (fun p => p.2 == j)).map (fun p => p.1.idx)).toFinset

def init_chop (divs : List ℚ) (cells : List GCell) (i : ℕ) : ℕ :=
  match (stage_a_chops divs cells).find? (fun p => p.1.idx == i) with
  | some p => p.2
  | none => divs.length

def group_univ (cells : List GCell) : Finset ℕ :=
  (cells.map (fun cl => cl.idx)).toFinset

def distinctIdx (cells : List GCell) : Prop :=
  (cells.map (fun cl => cl.idx)).Nodup

def stageC_iter (divs : List ℚ) (cells : List GCell) (n : ℕ) : ℕ → Finset ℕ :=
  (List.range n).foldl
    (stageCStep (nb_of cells) (area_of cells) (value_of cells) (init_chop divs cells) divs)
    (chopsInit (stage_a_chops divs cells))

def chop_pipeline (divs : List ℚ) (cells : List GCell) : ℕ → Finset ℕ :=
  stageC_iter divs cells divs.length

/-
Flood-fill lemmas: the inner while loop of `_get_chop_clusters` stays inside
the chop set, only grows the cluster, and — with sufficient fuel, which the
caller always provides — returns a set closed under neighbors-in-chop-set.
-/

theorem floodFill_subset (nb : ℕ → Finset ℕ) (cs : Finset ℕ) :
    ∀ (fuel : ℕ) (cluster frontier : Finset ℕ),
      cluster ⊆ cs → frontier ⊆ cs → floodFill nb cs fuel cluster frontier ⊆ cs := by
  intro fuel
  induction fuel with
  | zero => intro cluster frontier hc _; exact hc
  | succ n ih =>
    intro cluster frontier hc hf
    show floodFill nb cs (n + 1) cluster frontier ⊆ cs
    unfold floodFill
    by_cases h : frontier.Nonempty
    · rw [dif_pos h]
      apply ih
      · intro x hx
        rcases Finset.mem_insert.mp hx with hx | hx
        · exact hf (hx ▸ frontier.min'_mem h)
        · exact hc hx
      · intro x hx
        rcases Finset.mem_union.mp (Finset.mem_sdiff.mp hx).1 with hx2 | hx2
        · exact hf (Finset.mem_of_mem_erase hx2)
        · exact (Finset.mem_inter.mp hx2).2
    · rw [dif_neg h]
      exact hc

theorem floodFill_mono (nb : ℕ → Finset ℕ) (cs : Finset ℕ) :
    ∀ (fuel : ℕ) (cluster frontier : Finset ℕ),
      cluster ⊆ floodFill nb cs fuel cluster frontier := by
  intro fuel
  induction fuel with
  | zero => intro cluster frontier; exact subset_refl _
  | succ n ih =>
    intro cluster frontier
    show cluster ⊆ floodFill nb cs (n + 1) cluster frontier
    unfold floodFill
    by_cases h : frontier.Nonempty
    · rw [dif_pos h]
      exact subset_trans (Finset.subset_insert _ _) (ih _ _)
    · rw [dif_neg h]

theorem floodFill_closed (nb : ℕ → Finset ℕ) (cs : Finset ℕ) :
    ∀ (fuel : ℕ) (cluster frontier : Finset ℕ),
      cluster ⊆ cs → frontier ⊆ cs →
      (∀ x ∈ cluster, x ∉ frontier) →
      (∀ x ∈ cluster, nb x ∩ cs ⊆ cluster ∪ frontier) →
      (cs \ cluster).card < fuel →
      ∀ x ∈ floodFill nb cs fuel cluster frontier,
        nb x ∩ cs ⊆ floodFill nb cs fuel cluster frontier := by
  intro fuel
  induction fuel with
  | zero =>
    intro cluster frontier _ _ _ _ hcard
    exact absurd hcard (Nat.not_lt_zero _)
  | succ n ih =>
    intro cluster frontier hcs hfs hdisj hclo hcard
    show ∀ x ∈ floodFill nb cs (n + 1) cluster frontier,
      nb x ∩ cs ⊆ floodFill nb cs (n + 1) cluster frontier
    unfold floodFill
    by_cases h : frontier.Nonempty
    · rw [dif_pos h]
      set nbr := frontier.min' h with hnbr
      have hnbrf : nbr ∈ frontier := frontier.min'_mem h
      have hnbrcs : nbr ∈ cs := hfs hnbrf
      have hnbrnc : nbr ∉ cluster := fun hx => hdisj nbr hx hnbrf
      apply ih
      · intro x hx
        rcases Finset.mem_insert.mp hx with hx | hx
        · exact hx ▸ hnbrcs
        · exact hcs hx
      · intro x hx
        rcases Finset.mem_union.mp (Finset.mem_sdiff.mp hx).1 with hx2 | hx2
        · exact hfs (Finset.mem_of_mem_erase hx2)
        · exact (Finset.mem_inter.mp hx2).2
      · intro x hx hxf
        exact (Finset.mem_sdiff.mp hxf).2 hx
      · intro x hx
        intro y hy
        rcases Finset.mem_insert.mp hx with hx | hx
        · by_cases hyc : y ∈ insert nbr cluster
          · exact Finset.mem_union_left _ hyc
          · apply Finset.mem_union_right
            apply Finset.mem_sdiff.mpr
            refine ⟨Finset.mem_union_right _ ?_, hyc⟩
            rw [← hx]
            exact hy
        · have := hclo x hx hy
          rcases Finset.mem_union.mp this with hyc | hyf
          · exact Finset.mem_union_left _ (Finset.mem_insert_of_mem hyc)
          · by_cases hyn : y ∈ insert nbr cluster
            · exact Finset.mem_union_left _ hyn
            · apply Finset.mem_union_right
              apply Finset.mem_sdiff.mpr
              refine ⟨Finset.mem_union_left _ ?_, hyn⟩
              apply Finset.mem_erase.mpr
              refine ⟨?_, hyf⟩
              intro hynbr
              exact hyn (hynbr ▸ Finset.mem_insert_self _ _)
      · have hsub : cs \ insert nbr cluster ⊆ (cs \ cluster).erase nbr := by
          intro x hx
          rcases Finset.mem_sdiff.mp hx with ⟨hx1, hx2⟩
          apply Finset.mem_erase.mpr
          constructor
          · intro hxe
            exact hx2 (hxe ▸ Finset.mem_insert_self _ _)
          · exact Finset.mem_sdiff.mpr ⟨hx1, fun hc => hx2 (Finset.mem_insert_of_mem hc)⟩
        have h1 : (cs \ insert nbr cluster).card ≤ ((cs \ cluster).erase nbr).card :=
          Finset.card_le_card hsub
        have h2 : ((cs \ cluster).erase nbr).card = (cs \ cluster).card - 1 := by
          apply Finset.card_erase_of_mem
          exact Finset.mem_sdiff.mpr ⟨hnbrcs, hnbrnc⟩
        have h3 : 1 ≤ (cs \ cluster).card := by
          apply Finset.card_pos.mpr
          exact ⟨nbr, Finset.mem_sdiff.mpr ⟨hnbrcs, hnbrnc⟩⟩
        omega
    · rw [dif_neg h]
      intro x hx y hy
      have := hclo x hx hy
      rcases Finset.mem_union.mp this with hyc | hyf
      · exact hyc
      · exact absurd hyf (by simp [Finset.not_nonempty_iff_eq_empty.mp h])

theorem floodFill_avoid (nb : ℕ → Finset ℕ) (cs : Finset ℕ)
    (hsym : ∀ i j, i ∈ nb j → j ∈ nb i) (old : Finset ℕ)
    (hold : ∀ x ∈ old, nb x ∩ cs ⊆ old) :
    ∀ (fuel : ℕ) (cluster frontier : Finset ℕ),
      cluster ⊆ cs → frontier ⊆ cs →
      (∀ x ∈ cluster, x ∉ old) → (∀ x ∈ frontier, x ∉ old) →
      ∀ x ∈ floodFill nb cs fuel cluster frontier, x ∉ old := by
  intro fuel
  induction fuel with
  | zero => intro cluster frontier _ _ hc _; exact hc
  | succ n ih =>
    intro cluster frontier hcs hfs hcold hfold
    show ∀ x ∈ floodFill nb cs (n + 1) cluster frontier, x ∉ old
    unfold floodFill
    by_cases h : frontier.Nonempty
    · rw [dif_pos h]
      set nbr := frontier.min' h with hnbr
      have hnbrf : nbr ∈ frontier := frontier.min'_mem h
      apply ih
      · intro x hx
        rcases Finset.mem_insert.mp hx with hx | hx
        · exact hx ▸ hfs hnbrf
        · exact hcs hx
      · intro x hx
        rcases Finset.mem_union.mp (Finset.mem_sdiff.mp hx).1 with hx2 | hx2
        · exact hfs (Finset.mem_of_mem_erase hx2)
        · exact (Finset.mem_inter.mp hx2).2
      · intro x hx
        rcases Finset.mem_insert.mp hx with hx | hx
        · exact hx ▸ hfold nbr hnbrf
        · exact hcold x hx
      · intro x hx
        rcases Finset.mem_union.mp (Finset.mem_sdiff.mp hx).1 with hx2 | hx2
        · exact hfold x (Finset.mem_of_mem_erase hx2)
        · rcases Finset.mem_inter.mp hx2 with ⟨hxnb, hxcs⟩
          intro hxold
          have : nbr ∈ nb x ∩ cs :=
            Finset.mem_inter.mpr ⟨hsym x nbr hxnb, hfs hnbrf⟩
          exact hfold nbr hnbrf (hold x hxold this)
    · rw [dif_neg h]
      exact hcold

theorem floodFill_succ (nb : ℕ → Finset ℕ) (cs : Finset ℕ) (fuel : ℕ)
    (cluster frontier : Finset ℕ) :
    floodFill nb cs (fuel + 1) cluster frontier =
      if h : frontier.Nonempty then
        floodFill nb cs fuel (insert (frontier.min' h) cluster)
          (((frontier.erase (frontier.min' h)) ∪ (nb (frontier.min' h) ∩ cs)) \
            insert (frontier.min' h) cluster)
      else cluster := rfl

theorem floodFill_two (nb : ℕ → Finset ℕ) (cs : Finset ℕ) (fuel : ℕ) (s : ℕ)
    (frontier : Finset ℕ) (hne : frontier.Nonempty) (hns : ∀ y ∈ frontier, y ≠ s) :
    s ∈ floodFill nb cs (fuel + 1) {s} frontier ∧
    ∃ y ∈ floodFill nb cs (fuel + 1) {s} frontier, y ≠ s := by
  rw [floodFill_succ, dif_pos hne]
  have hsub := floodFill_mono nb cs fuel (insert (frontier.min' hne) {s})
    (((frontier.erase (frontier.min' hne)) ∪ (nb (frontier.min' hne) ∩ cs)) \
      insert (frontier.min' hne) {s})
  refine ⟨hsub (Finset.mem_insert_of_mem (Finset.mem_singleton_self s)), ?_⟩
  exact ⟨frontier.min' hne, hsub (Finset.mem_insert_self _ _),
    hns _ (frontier.min'_mem hne)⟩

theorem getChopClustersAux_succ (nb : ℕ → Finset ℕ) (cs : Finset ℕ) (fuel : ℕ)
    (rem : Finset ℕ) :
    getChopClustersAux nb cs (fuel + 1) rem =
      if h : rem.Nonempty then
        if (nb (rem.min' h) ∩ cs) = ∅ then
          getChopClustersAux nb cs fuel (rem.erase (rem.min' h))
        else
          floodFill nb cs (cs.card + 1) {rem.min' h} (nb (rem.min' h) ∩ cs) ::
            getChopClustersAux nb cs fuel
              (rem \ floodFill nb cs (cs.card + 1) {rem.min' h} (nb (rem.min' h) ∩ cs))
      else [] := rfl

/-
Each cluster is contained in the chop set and has at least two distinct
members (a popped seed together with at least one of its neighbors).
-/
theorem getChopClustersAux_subset_two (nb : ℕ → Finset ℕ) (cs : Finset ℕ)
    (hirr : ∀ i, i ∉ nb i) :
    ∀ (fuel : ℕ) (rem : Finset ℕ), rem ⊆ cs →
      ∀ cl ∈ getChopClustersAux nb cs fuel rem,
        cl ⊆ cs ∧ ∃ a ∈ cl, ∃ b ∈ cl, a ≠ b := by
  intro fuel
  induction fuel with
  | zero => intro rem _ cl hcl; exact absurd hcl (List.not_mem_nil cl)
  | succ n ih =>
    intro rem hrem cl hcl
    rw [getChopClustersAux_succ] at hcl
    by_cases h : rem.Nonempty
    · rw [dif_pos h] at hcl
      set m := rem.min' h with hm
      by_cases hfront : (nb m ∩ cs) = ∅
      · rw [if_pos hfront] at hcl
        exact ih (rem.erase m) (subset_trans (Finset.erase_subset _ _) hrem) cl hcl
      · rw [if_neg hfront] at hcl
        rcases List.mem_cons.mp hcl with hcl | hcl
        · subst hcl
          have hmcs : m ∈ cs := hrem (rem.min'_mem h)
          have hfs : (nb m ∩ cs) ⊆ cs := Finset.inter_subset_right
          have hsub : floodFill nb cs (cs.card + 1) {m} (nb m ∩ cs) ⊆ cs := by
            apply floodFill_subset
            · intro x hx
              rw [Finset.mem_singleton.mp hx]
              exact hmcs
            · exact hfs
          have hne : (nb m ∩ cs).Nonempty := Finset.nonempty_iff_ne_empty.mpr hfront
          have htwo := floodFill_two nb cs cs.card m (nb m ∩ cs) hne
            (fun y hy hys => hirr m (hys ▸ (Finset.mem_inter.mp hy).1))
          refine ⟨hsub, m, htwo.1, ?_⟩
          rcases htwo.2 with ⟨y, hy, hys⟩
          exact ⟨y, hy, fun hmy => hys (hmy.symm)⟩
        · exact ih _ (subset_trans (Finset.sdiff_subset) hrem) cl hcl
    · rw [dif_neg h] at hcl
      exact absurd hcl (List.not_mem_nil cl)

/-
Each cluster is closed under neighbors-within-the-chop-set (the flood fill
runs to completion, its fuel being strictly larger than the chop-set size).
-/
theorem getChopClustersAux_closed (nb : ℕ → Finset ℕ) (cs : Finset ℕ)
    (hirr : ∀ i, i ∉ nb i) :
    ∀ (fuel : ℕ) (rem : Finset ℕ), rem ⊆ cs →
      ∀ cl ∈ getChopClustersAux nb cs fuel rem, ∀ x ∈ cl, nb x ∩ cs ⊆ cl := by
  intro fuel
  induction fuel with
  | zero => intro rem _ cl hcl; exact absurd hcl (List.not_mem_nil cl)
  | succ n ih =>
    intro rem hrem cl hcl
    rw [getChopClustersAux_succ] at hcl
    by_cases h : rem.Nonempty
    · rw [dif_pos h] at hcl
      set m := rem.min' h with hm
      by_cases hfront : (nb m ∩ cs) = ∅
      · rw [if_pos hfront] at hcl
        exact ih (rem.erase m) (subset_trans (Finset.erase_subset _ _) hrem) cl hcl
      · rw [if_neg hfront] at hcl
        rcases List.mem_cons.mp hcl with hcl | hcl
        · subst hcl
          have hmcs : m ∈ cs := hrem (rem.min'_mem h)
          apply floodFill_closed
          · intro x hx
            rw [Finset.mem_singleton.mp hx]
            exact hmcs
          · exact Finset.inter_subset_right
          · intro x hx hxf
            rw [Finset.mem_singleton.mp hx] at hxf
            exact hirr m (Finset.mem_inter.mp hxf).1
          · intro x hx
            rw [Finset.mem_singleton.mp hx]
            exact fun y hy => Finset.mem_union_right _ hy
          · have : (cs \ {m}).card ≤ cs.card := Finset.card_le_card (Finset.sdiff_subset)
            omega
        · exact ih _ (subset_trans (Finset.sdiff_subset) hrem) cl hcl
    · rw [dif_neg h] at hcl
      exact absurd hcl (List.not_mem_nil cl)

/-
Clusters avoid any neighbor-closed set that the working set avoids (used to
show that distinct clusters are disjoint).
-/
theorem getChopClustersAux_avoid (nb : ℕ → Finset ℕ) (cs : Finset ℕ)
    (hsym : ∀ i j, i ∈ nb j → j ∈ nb i) (old : Finset ℕ)
    (hold : ∀ x ∈ old, nb x ∩ cs ⊆ old) :
    ∀ (fuel : ℕ) (rem : Finset ℕ), rem ⊆ cs → (∀ x ∈ rem, x ∉ old) →
      ∀ cl ∈ getChopClustersAux nb cs fuel rem, ∀ x ∈ cl, x ∉ old := by
  intro fuel
  induction fuel with
  | zero => intro rem _ _ cl hcl; exact absurd hcl (List.not_mem_nil cl)
  | succ n ih =>
    intro rem hrem hravoid cl hcl
    rw [getChopClustersAux_succ] at hcl
    by_cases h : rem.Nonempty
    · rw [dif_pos h] at hcl
      set m := rem.min' h with hm
      have hmrem : m ∈ rem := rem.min'_mem h
      by_cases hfront : (nb m ∩ cs) = ∅
      · rw [if_pos hfront] at hcl
        exact ih (rem.erase m) (subset_trans (Finset.erase_subset _ _) hrem)
          (fun x hx => hravoid x (Finset.mem_of_mem_erase hx)) cl hcl
      · rw [if_neg hfront] at hcl
        rcases List.mem_cons.mp hcl with hcl | hcl
        · subst hcl
          apply floodFill_avoid nb cs hsym old hold
          · intro x hx
            rw [Finset.mem_singleton.mp hx]
            exact hrem hmrem
          · exact Finset.inter_subset_right
          · intro x hx
            rw [Finset.mem_singleton.mp hx]
            exact hravoid m hmrem
          · intro x hx hxold
            rcases Finset.mem_inter.mp hx with ⟨hxnb, hxcs⟩
            have : m ∈ nb x ∩ cs := Finset.mem_inter.mpr ⟨hsym x m hxnb, hrem hmrem⟩
            exact hravoid m hmrem (hold x hxold this)
        · exact ih _ (subset_trans (Finset.sdiff_subset) hrem)
            (fun x hx => hravoid x (Finset.mem_sdiff.mp hx).1) cl hcl
    · rw [dif_neg h] at hcl
      exact absurd hcl (List.not_mem_nil cl)

/-
Distinct clusters of the returned list are disjoint.
-/
theorem getChopClustersAux_pairwise (nb : ℕ → Finset ℕ) (cs : Finset ℕ)
    (hirr : ∀ i, i ∉ nb i) (hsym : ∀ i j, i ∈ nb j → j ∈ nb i) :
    ∀ (fuel : ℕ) (rem : Finset ℕ), rem ⊆ cs →
      (getChopClustersAux nb cs fuel rem).Pairwise (fun a b => ∀ x ∈ b, x ∉ a) := by
  intro fuel
  induction fuel with
  | zero => intro rem _; exact List.Pairwise.nil
  | succ n ih =>
    intro rem hrem
    rw [getChopClustersAux_succ]
    by_cases h : rem.Nonempty
    · rw [dif_pos h]
      set m := rem.min' h with hm
      by_cases hfront : (nb m ∩ cs) = ∅
      · rw [if_pos hfront]
        exact ih (rem.erase m) (subset_trans (Finset.erase_subset _ _) hrem)
      · rw [if_neg hfront]
        set cl := floodFill nb cs (cs.card + 1) {m} (nb m ∩ cs) with hcldef
        have hclosed : ∀ x ∈ cl, nb x ∩ cs ⊆ cl := by
          have := getChopClustersAux_closed nb cs hirr (n + 1) rem hrem cl
          apply this
          rw [getChopClustersAux_succ, dif_pos h, if_neg hfront]
          exact List.mem_cons_self _ _
        apply List.Pairwise.cons
        · intro b hb x hxb
          have := getChopClustersAux_avoid nb cs hsym cl hclosed n
            (rem \ cl) (subset_trans (Finset.sdiff_subset) hrem)
            (fun y hy => (Finset.mem_sdiff.mp hy).2) b hb
          exact this x hxb
        · exact ih _ (subset_trans (Finset.sdiff_subset) hrem)
    · rw [dif_neg h]
      exact List.Pairwise.nil

/-
A chop-set member belonging to no cluster has no neighbor inside the chop
set (the free singletons of the demotion enumeration).
-/
theorem getChopClustersAux_free (nb : ℕ → Finset ℕ) (cs : Finset ℕ) :
    ∀ (fuel : ℕ) (rem : Finset ℕ), rem ⊆ cs → rem.card ≤ fuel →
      ∀ x ∈ rem, (∀ cl ∈ getChopClustersAux nb cs fuel rem, x ∉ cl) →
        nb x ∩ cs = ∅ := by
  intro fuel
  induction fuel with
  | zero =>
    intro rem _ hcard x hx _
    rw [Finset.card_eq_zero.mp (Nat.le_zero.mp hcard)] at hx
    exact absurd hx (Finset.not_mem_empty x)
  | succ n ih =>
    intro rem hrem hcard x hx hnocl
    have h : rem.Nonempty := ⟨x, hx⟩
    rw [getChopClustersAux_succ] at hnocl
    rw [dif_pos h] at hnocl
    set m := rem.min' h with hm
    by_cases hfront : (nb m ∩ cs) = ∅
    · rw [if_pos hfront] at hnocl
      by_cases hxm : x = m
      · rw [hxm]
        exact hfront
      · apply ih (rem.erase m) (subset_trans (Finset.erase_subset _ _) hrem)
        · have : (rem.erase m).card = rem.card - 1 :=
            Finset.card_erase_of_mem (rem.min'_mem h)
          omega
        · exact Finset.mem_erase.mpr ⟨hxm, hx⟩
        · exact hnocl
    · rw [if_neg hfront] at hnocl
      set cl := floodFill nb cs (cs.card + 1) {m} (nb m ∩ cs) with hcldef
      have hxcl : x ∉ cl := hnocl cl (List.mem_cons_self _ _)
      apply ih (rem \ cl) (subset_trans (Finset.sdiff_subset) hrem)
      · have hmcl : m ∈ cl := by
          apply floodFill_mono
          exact Finset.mem_singleton_self m
        have hsub : rem \ cl ⊆ rem.erase m := by
          intro y hy
          rcases Finset.mem_sdiff.mp hy with ⟨hy1, hy2⟩
          exact Finset.mem_erase.mpr ⟨fun hym => hy2 (hym ▸ hmcl), hy1⟩
        have h1 : (rem \ cl).card ≤ (rem.erase m).card := Finset.card_le_card hsub
        have h2 : (rem.erase m).card = rem.card - 1 :=
          Finset.card_erase_of_mem (rem.min'_mem h)
        have h3 : 1 ≤ rem.card := Finset.card_pos.mpr h
        omega
      · exact Finset.mem_sdiff.mpr ⟨hx, hxcl⟩
      · intro cl2 hcl2
        exact hnocl cl2 (List.mem_cons_of_mem _ hcl2)

theorem get_chop_clusters_subset_two (cs : Finset ℕ) (nb : ℕ → Finset ℕ)
    (hirr : ∀ i, i ∉ nb i) :
    ∀ cl ∈ get_chop_clusters cs nb, cl ⊆ cs ∧ ∃ a ∈ cl, ∃ b ∈ cl, a ≠ b :=
  getChopClustersAux_subset_two nb cs hirr cs.card cs (subset_refl cs)

theorem get_chop_clusters_closed (cs : Finset ℕ) (nb : ℕ → Finset ℕ)
    (hirr : ∀ i, i ∉ nb i) :
    ∀ cl ∈ get_chop_clusters cs nb, ∀ x ∈ cl, nb x ∩ cs ⊆ cl :=
  getChopClustersAux_closed nb cs hirr cs.card cs (subset_refl cs)

theorem get_chop_clusters_pairwise (cs : Finset ℕ) (nb : ℕ → Finset ℕ)
    (hirr : ∀ i, i ∉ nb i) (hsym : ∀ i j, i ∈ nb j → j ∈ nb i) :
    (get_chop_clusters cs nb).Pairwise (fun a b => ∀ x ∈ b, x ∉ a) :=
  getChopClustersAux_pairwise nb cs hirr hsym cs.card cs (subset_refl cs)

theorem get_chop_clusters_free (cs : Finset ℕ) (nb : ℕ → Finset ℕ) (x : ℕ)
    (hx : x ∈ cs) (hnocl : ∀ cl ∈ get_chop_clusters cs nb, x ∉ cl) :
    nb x ∩ cs = ∅ :=
  getChopClustersAux_free nb cs cs.card cs (subset_refl cs) (le_refl cs.card) x hx hnocl

/-
Membership facts about the combination enumeration.
-/

theorem combinations_subset {α : Type} :
    ∀ (l : List α) (n : ℕ) (c : List α), c ∈ combinations n l → ∀ x ∈ c, x ∈ l := by
  intro l
  induction l with
  | nil =>
    intro n c hc x hx
    match n, hc with
    | 0, hc =>
      simp only [combinations, List.mem_singleton] at hc
      subst hc
      exact absurd hx (List.not_mem_nil x)
  | cons a l ih =>
    intro n c hc x hx
    match n with
    | 0 =>
      simp only [combinations, List.mem_singleton] at hc
      subst hc
      exact absurd hx (List.not_mem_nil x)
    | n + 1 =>
      simp only [combinations, List.mem_append, List.mem_map] at hc
      rcases hc with ⟨c2, hc2, hcc⟩ | hc
      · subst hcc
        rcases List.mem_cons.mp hx with hx | hx
        · exact hx ▸ List.mem_cons_self a l
        · exact List.mem_cons_of_mem a (ih n c2 hc2 x hx)
      · exact List.mem_cons_of_mem a (ih (n + 1) c hc x hx)

theorem combinations_one {α : Type} :
    ∀ l : List α, combinations 1 l = l.map (fun a => [a]) := by
  intro l
  induction l with
  | nil => rfl
  | cons a l ih =>
    show combinations (0 + 1) (a :: l) = _
    simp only [combinations, List.map_cons]
    rw [ih]
    rfl

theorem non_neighbor_combinations_subset (cluster : List ℕ) (count : ℕ)
    (nb : ℕ → Finset ℕ) (c : List ℕ) (hc : c ∈ non_neighbor_combinations cluster count nb) :
    ∀ x ∈ c, x ∈ cluster := by
  unfold non_neighbor_combinations at hc
  by_cases hlen : count > cluster.length
  · rw [if_pos hlen] at hc
    exact absurd hc (List.not_mem_nil c)
  · rw [if_neg hlen] at hc
    rcases hcomb : combinations count cluster with _ | ⟨first, rest⟩
    · rw [hcomb] at hc
      exact absurd hc (List.not_mem_nil c)
    · rw [hcomb] at hc
      rcases List.mem_cons.mp hc with hc | hc
      · subst hc
        exact combinations_subset cluster count c (hcomb ▸ List.mem_cons_self _ _)
      · exact combinations_subset cluster count c
          (hcomb ▸ List.mem_cons_of_mem _ (List.mem_of_mem_filter hc))

theorem singleton_mem_nnc (l : List ℕ) (nb : ℕ → Finset ℕ) (x : ℕ) (hx : x ∈ l) :
    [x] ∈ non_neighbor_combinations l 1 nb := by
  unfold non_neighbor_combinations
  have hlen : ¬(1 > l.length) := by
    have : 0 < l.length := List.length_pos.mpr (List.ne_nil_of_mem hx)
    omega
  rw [if_neg hlen]
  rw [combinations_one]
  rcases l with _ | ⟨a, l⟩
  · exact absurd hx (List.not_mem_nil x)
  · simp only [List.map_cons]
    rcases List.mem_cons.mp hx with hx | hx
    · subst hx
      exact List.mem_cons_self _ _
    · apply List.mem_cons_of_mem
      apply List.mem_filter.mpr
      constructor
      · exact List.mem_map.mpr ⟨x, hx, rfl⟩
      · unfold pairwise_non_neighbor
        simp

theorem iter_cluster_candidates_subset (cluster : Finset ℕ) (nb : ℕ → Finset ℕ)
    (c : List ℕ) (hc : c ∈ iter_cluster_candidates cluster nb) : ∀ x ∈ c, x ∈ cluster := by
  unfold iter_cluster_candidates at hc
  rcases List.mem_flatMap.mp hc with ⟨count, _, hcm⟩
  intro x hx
  have := non_neighbor_combinations_subset _ count nb c hcm x hx
  exact (Finset.mem_sort (α := ℕ) (· ≤ ·)).mp this

theorem singleton_mem_iter_cluster_candidates (cluster : Finset ℕ) (nb : ℕ → Finset ℕ)
    (hcard : 1 < cluster.card) (x : ℕ) (hx : x ∈ cluster) :
    [x] ∈ iter_cluster_candidates cluster nb := by
  unfold iter_cluster_candidates
  apply List.mem_flatMap.mpr
  refine ⟨1, ?_, ?_⟩
  · apply List.mem_range'.mpr
    refine ⟨0, by omega, by omega⟩
  · apply singleton_mem_nnc
    exact (Finset.mem_sort (α := ℕ) (· ≤ ·)).mpr hx

theorem listProduct_parts {α : Type} :
    ∀ (ls : List (List α)) (combo : List α), combo ∈ listProduct ls →
      ∀ l ∈ combo, ∃ li ∈ ls, l ∈ li := by
  intro ls
  induction ls with
  | nil =>
    intro combo hc l hl
    simp only [listProduct, List.mem_singleton] at hc
    subst hc
    exact absurd hl (List.not_mem_nil l)
  | cons li ls ih =>
    intro combo hc l hl
    simp only [listProduct, List.mem_flatMap, List.mem_map] at hc
    rcases hc with ⟨x, hx, c2, hc2, hcc⟩
    subst hcc
    rcases List.mem_cons.mp hl with hl | hl
    · exact ⟨li, List.mem_cons_self _ _, hl ▸ hx⟩
    · rcases ih c2 hc2 l hl with ⟨li2, hli2, hm⟩
      exact ⟨li2, List.mem_cons_of_mem _ hli2, hm⟩

theorem listProduct_map_mem {α β : Type} (g : β → List α) (pick : β → α) :
    ∀ (l : List β), (∀ b ∈ l, pick b ∈ g b) → l.map pick ∈ listProduct (l.map g) := by
  intro l
  induction l with
  | nil => intro _; simp [listProduct]
  | cons b l ih =>
    intro hp
    simp only [List.map_cons, listProduct]
    apply List.mem_flatMap.mpr
    refine ⟨pick b, hp b (List.mem_cons_self _ _), ?_⟩
    apply List.mem_map.mpr
    exact ⟨l.map pick, ih (fun b2 hb2 => hp b2 (List.mem_cons_of_mem _ hb2)), rfl⟩

theorem finsetListUnion_mem (l : List (Finset ℕ)) (x : ℕ) :
    x ∈ finsetListUnion l ↔ ∃ s ∈ l, x ∈ s := by
  induction l with
  | nil => simp [finsetListUnion]
  | cons s l ih =>
    unfold finsetListUnion at ih ⊢
    simp only [List.foldr_cons, Finset.mem_union, ih]
    constructor
    · rintro (hx | ⟨s2, hs2, hx⟩)
      · exact ⟨s, List.mem_cons_self _ _, hx⟩
      · exact ⟨s2, List.mem_cons_of_mem _ hs2, hx⟩
    · rintro ⟨s2, hs2, hx⟩
      rcases List.mem_cons.mp hs2 with h | h
      · exact Or.inl (h ▸ hx)
      · exact Or.inr ⟨s2, h, hx⟩

theorem has_chop_clusters_eq_false (s : Finset ℕ) (nb : ℕ → Finset ℕ) :
    has_chop_clusters s nb = false ↔ ∀ i ∈ s, ∀ j ∈ nb i, j ∉ s := by
  unfold has_chop_clusters
  rw [List.any_eq_false]
  constructor
  · intro h i hi j hj hjs
    have := h i ((Finset.mem_sort (α := ℕ) (· ≤ ·)).mpr hi)
    simp only [decide_eq_true_eq] at this
    exact this ⟨j, Finset.mem_inter.mpr ⟨hj, hjs⟩⟩
  · intro h i hi
    simp only [decide_eq_true_eq]
    rintro ⟨j, hj⟩
    rcases Finset.mem_inter.mp hj with ⟨hj1, hj2⟩
    exact h i ((Finset.mem_sort (α := ℕ) (· ≤ ·)).mp hi) j hj1 hj2

/-
Shape of every demotion candidate: the kept set is inside the chop set, free
of internal adjacency, and the demoted set is its complement.
-/
theorem iter_demotion_candidates_spec (cs : Finset ℕ) (clusters : List (Finset ℕ))
    (nb : ℕ → Finset ℕ) (hclsub : ∀ cl ∈ clusters, cl ⊆ cs) :
    ∀ kd ∈ iter_demotion_candidates cs clusters nb,
      kd.1 ⊆ cs ∧ kd.2 = cs \ kd.1 ∧ has_chop_clusters kd.1 nb = false := by
  intro kd hkd
  unfold iter_demotion_candidates at hkd
  rcases List.mem_filterMap.mp hkd with ⟨combo, hcombo, hf⟩
  simp only at hf
  by_cases hhas : has_chop_clusters
      ((cs \ finsetListUnion clusters) ∪ finsetListUnion (combo.map List.toFinset)) nb = true
  · rw [if_pos hhas] at hf
    exact absurd hf (by simp)
  · rw [if_neg hhas] at hf
    have hkd2 := Option.some_injective _ hf
    subst hkd2
    have hsub : (cs \ finsetListUnion clusters) ∪ finsetListUnion (combo.map List.toFinset)
        ⊆ cs := by
      intro x hx
      rcases Finset.mem_union.mp hx with hx | hx
      · exact (Finset.mem_sdiff.mp hx).1
      · rcases (finsetListUnion_mem _ x).mp hx with ⟨s, hs, hxs⟩
        rcases List.mem_map.mp hs with ⟨lc, hlc, hsl⟩
        subst hsl
        rcases listProduct_parts _ combo hcombo lc hlc with ⟨li, hli, hlcm⟩
        rcases List.mem_map.mp hli with ⟨cl, hcl, hgi⟩
        subst hgi
        exact hclsub cl hcl (iter_cluster_candidates_subset cl nb lc hlcm x
          (List.mem_toFinset.mp hxs))
    refine ⟨hsub, rfl, ?_⟩
    cases hv : has_chop_clusters
        ((cs \ finsetListUnion clusters) ∪ finsetListUnion (combo.map List.toFinset)) nb
    · rfl
    · exact absurd hv hhas

/-
The demotion-candidate stream is never empty: picking the least element of
every cluster (together with all free cells) always yields an admissible
kept set, so the fallback `(0, chop_set, set(), set())` of line 326 is dead
code whenever the cluster list comes from `_get_chop_clusters`.
-/
theorem iter_demotion_candidates_ne_nil (cs : Finset ℕ) (nb : ℕ → Finset ℕ)
    (hirr : ∀ i, i ∉ nb i) (hsym : ∀ i j, i ∈ nb j → j ∈ nb i) :
    iter_demotion_candidates cs (get_chop_clusters cs nb) nb ≠ [] := by
  set clusters := get_chop_clusters cs nb with hclusters
  set pick : Finset ℕ → List ℕ :=
    fun cl => if h : cl.Nonempty then [cl.min' h] else [] with hpick
  have hprod : clusters.map pick ∈
      listProduct (clusters.map (fun cl => iter_cluster_candidates cl nb)) := by
    apply listProduct_map_mem
    intro cl hcl
    have h2 := (get_chop_clusters_subset_two cs nb hirr cl hcl).2
    have hcard : 1 < cl.card := by
      rcases h2 with ⟨a, ha, b, hb, hab⟩
      exact Finset.one_lt_card.mpr ⟨a, ha, b, hb, hab⟩
    have hne : cl.Nonempty := Finset.card_pos.mp (by omega)
    rw [hpick]
    simp only [dif_pos hne]
    exact singleton_mem_iter_cluster_candidates cl nb hcard (cl.min' hne) (cl.min'_mem hne)
  set cand := (cs \ finsetListUnion clusters) ∪
    finsetListUnion ((clusters.map pick).map List.toFinset) with hcand
  have hcandsub : cand ⊆ cs := by
    intro x hx
    rcases Finset.mem_union.mp hx with hx | hx
    · exact (Finset.mem_sdiff.mp hx).1
    · rcases (finsetListUnion_mem _ x).mp hx with ⟨s, hs, hxs⟩
      rcases List.mem_map.mp hs with ⟨lc, hlc, hsl⟩
      subst hsl
      rcases List.mem_map.mp hlc with ⟨cl, hcl, hgi⟩
      subst hgi
      have hx2 := List.mem_toFinset.mp hxs
      rw [hpick] at hx2
      by_cases hne : cl.Nonempty
      · simp only [dif_pos hne, List.mem_singleton] at hx2
        exact (get_chop_clusters_subset_two cs nb hirr cl hcl).1 (hx2 ▸ cl.min'_mem hne)
      · simp only [dif_neg hne] at hx2
        exact absurd hx2 (List.not_mem_nil x)
  have hmem_char : ∀ x, x ∈ finsetListUnion ((clusters.map pick).map List.toFinset) →
      ∃ cl ∈ clusters, ∃ h : cl.Nonempty, x = cl.min' h := by
    intro x hx
    rcases (finsetListUnion_mem _ x).mp hx with ⟨s, hs, hxs⟩
    rcases List.mem_map.mp hs with ⟨lc, hlc, hsl⟩
    subst hsl
    rcases List.mem_map.mp hlc with ⟨cl, hcl, hgi⟩
    subst hgi
    have hx2 := List.mem_toFinset.mp hxs
    rw [hpick] at hx2
    by_cases hne : cl.Nonempty
    · simp only [dif_pos hne, List.mem_singleton] at hx2
      exact ⟨cl, hcl, hne, hx2⟩
    · simp only [dif_neg hne] at hx2
      exact absurd hx2 (List.not_mem_nil x)
  have hfree_char : ∀ x, x ∈ cs \ finsetListUnion clusters → nb x ∩ cs = ∅ := by
    intro x hx
    rcases Finset.mem_sdiff.mp hx with ⟨hx1, hx2⟩
    apply get_chop_clusters_free cs nb x hx1
    intro cl hcl hxcl
    exact hx2 ((finsetListUnion_mem clusters x).mpr ⟨cl, hcl, hxcl⟩)
  have hpass : has_chop_clusters cand nb = false := by
    rw [has_chop_clusters_eq_false]
    intro i hi j hj hjs
    have hics : i ∈ cs := hcandsub hi
    have hjcs : j ∈ cs := hcandsub hjs
    rcases Finset.mem_union.mp hi with hif | hic
    · have := hfree_char i hif
      have : j ∈ nb i ∩ cs := Finset.mem_inter.mpr ⟨hj, hjcs⟩
      rw [hfree_char i hif] at this
      exact absurd this (Finset.not_mem_empty j)
    · rcases hmem_char i hic with ⟨cli, hcli, hnei, hieq⟩
      rcases Finset.mem_union.mp hjs with hjf | hjc
      · have : i ∈ nb j ∩ cs := Finset.mem_inter.mpr ⟨hsym j i hj, hics⟩
        rw [hfree_char j hjf] at this
        exact absurd this (Finset.not_mem_empty i)
      · rcases hmem_char j hjc with ⟨clj, hclj, hnej, hjeq⟩
        have himem : i ∈ cli := hieq ▸ cli.min'_mem hnei
        have hjmem : j ∈ clj := hjeq ▸ clj.min'_mem hnej
        have hjcli : j ∈ cli := by
          have := get_chop_clusters_closed cs nb hirr cli hcli i himem
          exact this (Finset.mem_inter.mpr ⟨hj, hjcs⟩)
        by_cases heqc : cli = clj
        · subst heqc
          have : i = j := by
            rw [hieq, hjeq]
          subst this
          exact hirr i hj
        · have hsymm : Symmetric (fun a b : Finset ℕ => ∀ x ∈ b, x ∉ a) := by
            intro a b hab x hxa hxb
            exact hab x hxb hxa
          have h2 := List.Pairwise.forall hsymm
            (get_chop_clusters_pairwise cs nb hirr hsym) hcli hclj heqc
          exact h2 j hjmem hjcli
  apply List.ne_nil_of_mem (a := (cand, cs \ cand))
  unfold iter_demotion_candidates
  apply List.mem_filterMap.mpr
  refine ⟨clusters.map pick, hprod, ?_⟩
  simp only [← hcand, hpass]
  rw [if_neg (by simp [hpass])]

theorem maxByKey_fold_mem {α : Type} (key : α → ℚ) :
    ∀ (xs : List α) (b : α),
      xs.foldl (fun b y => if key b < key y then y else b) b ∈ b :: xs := by
  intro xs
  induction xs with
  | nil => intro b; exact List.mem_singleton.mpr rfl
  | cons y xs ih =>
    intro b
    simp only [List.foldl_cons]
    rcases List.mem_cons.mp (ih (if key b < key y then y else b)) with h | h
    · rw [h]
      by_cases hk : key b < key y
      · rw [if_pos hk]
        exact List.mem_cons_of_mem _ (List.mem_cons_self _ _)
      · rw [if_neg hk]
        exact List.mem_cons_self _ _
    · exact List.mem_cons_of_mem _ (List.mem_cons_of_mem _ h)

theorem maxByKey_of_ne_nil {α : Type} (key : α → ℚ) (l : List α) (h : l ≠ []) :
    ∃ x, maxByKey key l = some x ∧ x ∈ l := by
  rcases l with _ | ⟨a, xs⟩
  · exact absurd rfl h
  · exact ⟨xs.foldl (fun b y => if key b < key y then y else b) a, rfl, maxByKey_fold_mem key xs a⟩

/-
Invariants of the greedy promotion accumulation: the result only contains
pool elements, is internally non-adjacent, and — when non-empty — its total
area on top of the kept area stays within the tranche quota.
-/
theorem promoteStep_zero (nb : ℕ → Finset ℕ) (area : ℕ → ℚ) (limit : ℚ)
    (pc cand : Finset ℕ) (acc : ℚ) (idx : ℕ) :
    promoteStep nb area limit 0 pc cand acc idx = cand := rfl

theorem promoteStep_spec (nb : ℕ → Finset ℕ) (area : ℕ → ℚ) (limit : ℚ)
    (hsym : ∀ i j, i ∈ nb j → j ∈ nb i) (pool0 : Finset ℕ) (base : ℚ) :
    ∀ (fuel : ℕ) (pc cand : Finset ℕ) (acc : ℚ) (idx : ℕ),
      pc ⊆ pool0 → cand ⊆ pool0 → idx ∈ pc →
      (∀ x ∈ cand, x ∉ pc) →
      (∀ x ∈ cand, ∀ y ∈ pc, y ∉ nb x) →
      (∀ x ∈ cand, ∀ y ∈ cand, x ≠ y → y ∉ nb x) →
      acc = base + Finset.sum cand area →
      (cand.Nonempty → acc ≤ limit) →
      cand ⊆ promoteStep nb area limit fuel pc cand acc idx ∧
      promoteStep nb area limit fuel pc cand acc idx ⊆ pool0 ∧
      (∀ x ∈ promoteStep nb area limit fuel pc cand acc idx,
        ∀ y ∈ promoteStep nb area limit fuel pc cand acc idx, x ≠ y → y ∉ nb x) ∧
      ((promoteStep nb area limit fuel pc cand acc idx).Nonempty →
        base + Finset.sum (promoteStep nb area limit fuel pc cand acc idx) area ≤ limit) := by
  intro fuel
  induction fuel with
  | zero =>
    intro pc cand acc idx _ hcand _ _ _ hpair hacc hlim
    simp only [promoteStep_zero]
    refine ⟨subset_refl _, hcand, hpair, fun hne => ?_⟩
    rw [← hacc]
    exact hlim hne
  | succ n ih =>
    intro pc cand acc idx hpc hcand hidx hdisj hsep hpair hacc hlim
    have hpcne : pc.Nonempty := ⟨idx, hidx⟩
    have hidxnc : idx ∉ cand := fun hc => hdisj idx hc hidx
    show cand ⊆ promoteStep nb area limit (n + 1) pc cand acc idx ∧ _
    unfold promoteStep
    rw [if_pos hpcne]
    by_cases hover : limit < acc + area idx
    · rw [if_pos hover]
      refine ⟨subset_refl _, hcand, hpair, fun hne => ?_⟩
      rw [← hacc]
      exact hlim hne
    · rw [if_neg hover]
      have hcand2 : insert idx cand ⊆ pool0 := by
        intro x hx
        rcases Finset.mem_insert.mp hx with hx | hx
        · exact hx ▸ hpc hidx
        · exact hcand hx
      have hpair2 : ∀ x ∈ insert idx cand, ∀ y ∈ insert idx cand, x ≠ y → y ∉ nb x := by
        intro x hx y hy hxy hynb
        rcases Finset.mem_insert.mp hx with hx1 | hx1
        · rcases Finset.mem_insert.mp hy with hy1 | hy1
          · exact hxy (hx1.trans hy1.symm)
          · exact hsep y hy1 idx hidx (hx1 ▸ hsym y x hynb)
        · rcases Finset.mem_insert.mp hy with hy1 | hy1
          · exact hsep x hx1 idx hidx (hy1 ▸ hynb)
          · exact hpair x hx1 y hy1 hxy hynb
      have hacc2 : acc + area idx = base + Finset.sum (insert idx cand) area := by
        rw [Finset.sum_insert hidxnc, hacc]
        ring
      by_cases hrec : ((pc.erase idx) \ nb idx).Nonempty
      · rw [dif_pos hrec]
        apply And.intro
        · intro x hx
          have := (ih ((pc.erase idx) \ nb idx) (insert idx cand) (acc + area idx)
            (((pc.erase idx) \ nb idx).min' hrec)
            (subset_trans (Finset.sdiff_subset) (subset_trans (Finset.erase_subset _ _) hpc))
            hcand2 (Finset.min'_mem _ hrec) ?_ ?_ hpair2 hacc2
            (fun _ => not_lt.mp hover)).1
          · exact this (Finset.mem_insert_of_mem hx)
          · intro z hz hz2
            rcases Finset.mem_insert.mp hz with hz | hz
            · subst hz
              exact (Finset.mem_erase.mp (Finset.mem_sdiff.mp hz2).1).1 rfl
            · exact hdisj z hz (Finset.mem_of_mem_erase (Finset.mem_sdiff.mp hz2).1)
          · intro z hz y hy
            rcases Finset.mem_insert.mp hz with hz | hz
            · subst hz
              exact (Finset.mem_sdiff.mp hy).2
            · exact hsep z hz y (Finset.mem_of_mem_erase (Finset.mem_sdiff.mp hy).1)
        · exact (ih ((pc.erase idx) \ nb idx) (insert idx cand) (acc + area idx)
            (((pc.erase idx) \ nb idx).min' hrec)
            (subset_trans (Finset.sdiff_subset) (subset_trans (Finset.erase_subset _ _) hpc))
            hcand2 (Finset.min'_mem _ hrec)
            (by
              intro z hz hz2
              rcases Finset.mem_insert.mp hz with hz | hz
              · subst hz
                exact (Finset.mem_erase.mp (Finset.mem_sdiff.mp hz2).1).1 rfl
              · exact hdisj z hz (Finset.mem_of_mem_erase (Finset.mem_sdiff.mp hz2).1))
            (by
              intro z hz y hy
              rcases Finset.mem_insert.mp hz with hz | hz
              · subst hz
                exact (Finset.mem_sdiff.mp hy).2
              · exact hsep z hz y (Finset.mem_of_mem_erase (Finset.mem_sdiff.mp hy).1))
            hpair2 hacc2 (fun _ => not_lt.mp hover)).2
      · rw [dif_neg hrec]
        refine ⟨Finset.subset_insert _ _, hcand2, hpair2, fun _ => ?_⟩
        rw [← hacc2]
        exact not_lt.mp hover

theorem promoteFrom_spec (nb : ℕ → Finset ℕ) (area : ℕ → ℚ) (limit : ℚ)
    (hsym : ∀ i j, i ∈ nb j → j ∈ nb i) (pool : Finset ℕ) (keptArea : ℚ) (start : ℕ)
    (hstart : start ∈ pool) :
    promoteFrom nb area limit pool keptArea start ⊆ pool ∧
    (∀ x ∈ promoteFrom nb area limit pool keptArea start,
      ∀ y ∈ promoteFrom nb area limit pool keptArea start, x ≠ y → y ∉ nb x) ∧
    ((promoteFrom nb area limit pool keptArea start).Nonempty →
      keptArea + Finset.sum (promoteFrom nb area limit pool keptArea start) area ≤ limit) := by
  have := promoteStep_spec nb area limit hsym pool keptArea pool.card pool ∅ keptArea start
    (subset_refl pool) (Finset.empty_subset pool) hstart
    (fun x hx => absurd hx (Finset.not_mem_empty x))
    (fun x hx => absurd hx (Finset.not_mem_empty x))
    (fun x hx => absurd hx (Finset.not_mem_empty x))
    (by rw [Finset.sum_empty]; ring)
    (fun hne => absurd hne (by simp))
  exact ⟨this.2.1, this.2.2.1, this.2.2.2⟩

/-
The selected promotion set (lines 303-324): either empty, or a pool subset
that is internally non-adjacent, avoids all neighbors of the kept set, and
fits together with the kept area inside the tranche quota.
-/
theorem promoSelect_spec (nb : ℕ → Finset ℕ) (area value : ℕ → ℚ) (limit : ℚ)
    (ch : ℕ → Finset ℕ) (c K : ℕ) (kept : Finset ℕ)
    (hsym : ∀ i j, i ∈ nb j → j ∈ nb i) :
    (promoSelect nb area value limit ch c K kept).2 ⊆
      (unionLater ch c K) \ kept.biUnion nb ∧
    (∀ x ∈ (promoSelect nb area value limit ch c K kept).2,
      ∀ y ∈ (promoSelect nb area value limit ch c K kept).2, x ≠ y → y ∉ nb x) ∧
    ((promoSelect nb area value limit ch c K kept).2.Nonempty →
      Finset.sum kept area + Finset.sum (promoSelect nb area value limit ch c K kept).2 area
        ≤ limit) := by
  unfold promoSelect
  set pool := (unionLater ch c K) \ kept.biUnion nb with hpool
  set cands := (pool.sort (· ≤ ·)).filterMap (fun start =>
    let cd := promoteFrom nb area limit pool (Finset.sum kept area) start
    if cd = ∅ then none else some (Finset.sum cd value, cd)) with hcands
  cases hm : maxByKey (fun p => p.1) cands with
  | none =>
    simp only [hm]
    refine ⟨Finset.empty_subset _, ?_, ?_⟩
    · intro x hx
      exact absurd hx (Finset.not_mem_empty x)
    · intro hne
      exact absurd hne (by simp)
  | some p =>
    simp only [hm]
    have hpmem : p ∈ cands := by
      rcases maxByKey_of_ne_nil (fun p => p.1) cands (by intro h; rw [h] at hm; cases hm)
        with ⟨q, hq, hqm⟩
      rw [hq] at hm
      cases hm
      exact hqm
    rw [hcands] at hpmem
    rcases List.mem_filterMap.mp hpmem with ⟨start, hstart, hf⟩
    simp only at hf
    by_cases hcd : promoteFrom nb area limit pool (Finset.sum kept area) start = ∅
    · rw [if_pos hcd] at hf
      cases hf
    · rw [if_neg hcd] at hf
      have hp := Option.some_injective _ hf
      have hstartpool : start ∈ pool := (Finset.mem_sort (α := ℕ) (· ≤ ·)).mp hstart
      have hspec := promoteFrom_spec nb area limit hsym pool (Finset.sum kept area)
        start hstartpool
      rw [← hp]
      exact ⟨hspec.1, hspec.2.1, hspec.2.2⟩

/-
Full specification of the winning combination of one Stage C tranche.
-/
theorem chooseCombo_spec (nb : ℕ → Finset ℕ) (area value : ℕ → ℚ) (divs : List ℚ)
    (ch : ℕ → Finset ℕ) (c : ℕ)
    (hirr : ∀ i, i ∉ nb i) (hsym : ∀ i j, i ∈ nb j → j ∈ nb i) :
    (chooseCombo nb area value divs ch c).2.1 ⊆ ch c ∧
    (chooseCombo nb area value divs ch c).2.2.1 =
      ch c \ (chooseCombo nb area value divs ch c).2.1 ∧
    has_chop_clusters (chooseCombo nb area value divs ch c).2.1 nb = false ∧
    (chooseCombo nb area value divs ch c).2.2.2 ⊆
      (unionLater ch c divs.length) \ (chooseCombo nb area value divs ch c).2.1.biUnion nb ∧
    (∀ x ∈ (chooseCombo nb area value divs ch c).2.2.2,
      ∀ y ∈ (chooseCombo nb area value divs ch c).2.2.2, x ≠ y → y ∉ nb x) ∧
    ((chooseCombo nb area value divs ch c).2.2.2.Nonempty →
      Finset.sum (chooseCombo nb area value divs ch c).2.1 area +
        Finset.sum (chooseCombo nb area value divs ch c).2.2.2 area ≤ divs.getD c 0) := by
  unfold chooseCombo
  set scored := (iter_demotion_candidates (ch c) (get_chop_clusters (ch c) nb) nb).map
    (fun kd =>
      (Finset.sum kd.1 value +
          (promoSelect nb area value (divs.getD c 0) ch c divs.length kd.1).1,
        kd.1, kd.2,
        (promoSelect nb area value (divs.getD c 0) ch c divs.length kd.1).2)) with hscored
  have hne : scored ≠ [] := by
    rw [hscored]
    intro h
    exact iter_demotion_candidates_ne_nil (ch c) nb hirr hsym (List.map_eq_nil.mp h)
  rcases maxByKey_of_ne_nil (fun t => t.1) scored hne with ⟨t, ht, htm⟩
  rw [ht]
  simp only
  rw [hscored] at htm
  rcases List.mem_map.mp htm with ⟨kd, hkd, htt⟩
  have hdc := iter_demotion_candidates_spec (ch c) (get_chop_clusters (ch c) nb) nb
    (fun cl hcl => (get_chop_clusters_subset_two (ch c) nb hirr cl hcl).1) kd hkd
  have hps := promoSelect_spec nb area value (divs.getD c 0) ch c divs.length kd.1 hsym
  rw [← htt]
  simp only
  exact ⟨hdc.1, by rw [hdc.2.1], hdc.2.2, hps.1, hps.2.1, hps.2.2⟩

/-
Membership characterization of the demotion update: every demoted cell is
removed from tranche `c` and added to the overflow tranche `K`; nothing else
changes.
-/
theorem demFold_mem (c K : ℕ) (hcK : c ≠ K) :
    ∀ (l : List ℕ) (ch : ℕ → Finset ℕ) (j x : ℕ),
      x ∈ demFold c K l ch j ↔
        (j = c ∧ x ∈ ch c ∧ x ∉ l) ∨ (j = K ∧ (x ∈ ch K ∨ x ∈ l)) ∨
        (j ≠ c ∧ j ≠ K ∧ x ∈ ch j) := by
  intro l
  induction l with
  | nil =>
    intro ch j x
    show x ∈ ch j ↔ _
    by_cases hjc : j = c
    · subst hjc
      simp [hcK]
    · by_cases hjK : j = K
      · subst hjK
        simp [hjc]
      · simp [hjc, hjK]
  | cons a l ih =>
    intro ch j x
    rw [show demFold c K (a :: l) ch = demFold c K l (set_insert (set_erase ch c a) K a) from rfl]
    rw [ih]
    have hec : (set_insert (set_erase ch c a) K a) c = (ch c).erase a := by
      unfold set_insert set_erase
      simp [hcK, Ne.symm hcK]
    have heK : (set_insert (set_erase ch c a) K a) K = insert a (ch K) := by
      unfold set_insert set_erase
      simp [Ne.symm hcK]
    constructor
    · rintro (⟨hj, hx, hxl⟩ | ⟨hj, hx⟩ | ⟨hj1, hj2, hx⟩)
      · rw [hec] at hx
        rcases Finset.mem_erase.mp hx with ⟨hxa, hxc⟩
        exact Or.inl ⟨hj, hxc, by simp [hxa, hxl]⟩
      · rw [heK] at hx
        rcases hx with hx | hx
        · rcases Finset.mem_insert.mp hx with hx | hx
          · exact Or.inr (Or.inl ⟨hj, Or.inr (by simp [hx])⟩)
          · exact Or.inr (Or.inl ⟨hj, Or.inl hx⟩)
        · exact Or.inr (Or.inl ⟨hj, Or.inr (List.mem_cons_of_mem a hx)⟩)
      · have : (set_insert (set_erase ch c a) K a) j = ch j := by
          unfold set_insert set_erase
          simp [hj1, hj2]
        rw [this] at hx
        exact Or.inr (Or.inr ⟨hj1, hj2, hx⟩)
    · rintro (⟨hj, hx, hxl⟩ | ⟨hj, hx⟩ | ⟨hj1, hj2, hx⟩)
      · left
        refine ⟨hj, ?_, fun hc => hxl (List.mem_cons_of_mem a hc)⟩
        rw [hec]
        exact Finset.mem_erase.mpr ⟨fun he => hxl (he ▸ List.mem_cons_self a l), hx⟩
      · right; left
        refine ⟨hj, ?_⟩
        rw [heK]
        rcases hx with hx | hx
        · exact Or.inl (Finset.mem_insert_of_mem hx)
        · rcases List.mem_cons.mp hx with hx | hx
          · exact Or.inl (hx ▸ Finset.mem_insert_self a (ch K))
          · exact Or.inr hx
      · right; right
        refine ⟨hj1, hj2, ?_⟩
        have : (set_insert (set_erase ch c a) K a) j = ch j := by
          unfold set_insert set_erase
          simp [hj1, hj2]
        rw [this]
        exact hx

theorem set_erase_mem (ch : ℕ → Finset ℕ) (j i k x : ℕ) :
    x ∈ set_erase ch j i k ↔ x ∈ ch k ∧ ¬(k = j ∧ x = i) := by
  unfold set_erase
  by_cases hkj : k = j
  · rw [if_pos hkj, hkj]
    rw [Finset.mem_erase]
    tauto
  · rw [if_neg hkj]
    tauto

theorem set_insert_mem (ch : ℕ → Finset ℕ) (j i k x : ℕ) :
    x ∈ set_insert ch j i k ↔ (k = j ∧ x = i) ∨ x ∈ ch k := by
  unfold set_insert
  by_cases hkj : k = j
  · rw [if_pos hkj, hkj]
    rw [Finset.mem_insert]
    tauto
  · rw [if_neg hkj]
    tauto

/-
Membership characterization of the promotion update over a duplicate-free
list (the sorted promotion set): every promoted cell lands in tranche `c`
and is removed from its Stage-A tranche and from the overflow tranche;
other cells are untouched.
-/
theorem promoFold_mem (c K : ℕ) (ic : ℕ → ℕ) :
    ∀ (l : List ℕ), l.Nodup → ∀ (ch : ℕ → Finset ℕ) (j x : ℕ),
      (x ∈ promoFold c K ic l ch j ↔
        (x ∈ l ∧ j = c) ∨
        (x ∈ l ∧ j ≠ c ∧ j ≠ K ∧ j ≠ ic x ∧ x ∈ ch j) ∨
        (x ∉ l ∧ x ∈ ch j)) := by
  intro l
  induction l with
  | nil =>
    intro _ ch j x
    show x ∈ ch j ↔ _
    simp
  | cons a l ih =>
    intro hnd ch j x
    have hal : a ∉ l := (List.nodup_cons.mp hnd).1
    have hndl : l.Nodup := (List.nodup_cons.mp hnd).2
    rw [show promoFold c K ic (a :: l) ch =
      promoFold c K ic l (set_insert (set_erase (set_erase ch (ic a) a) K a) c a) from rfl]
    rw [ih hndl]
    set ch2 := set_insert (set_erase (set_erase ch (ic a) a) K a) c a with hch2
    have hch2mem : ∀ j2 y, y ∈ ch2 j2 ↔
        ((j2 = c ∧ y = a) ∨
          (y ∈ ch j2 ∧ ¬(j2 = K ∧ y = a) ∧ ¬(j2 = ic a ∧ y = a))) := by
      intro j2 y
      rw [hch2]
      rw [set_insert_mem, set_erase_mem, set_erase_mem]
      tauto
    by_cases hxa : x = a
    · subst hxa
      constructor
      · rintro (⟨hxl, hj⟩ | ⟨hxl, _, _, _, _⟩ | ⟨_, hx⟩)
        · exact absurd hxl hal
        · exact absurd hxl hal
        · rcases (hch2mem j x).mp hx with ⟨hj, _⟩ | ⟨hx2, hK, hic⟩
          · exact Or.inl ⟨List.mem_cons_self x l, hj⟩
          · by_cases hjc : j = c
            · exact Or.inl ⟨List.mem_cons_self x l, hjc⟩
            · refine Or.inr (Or.inl ⟨List.mem_cons_self x l, hjc, ?_, ?_, hx2⟩)
              · intro hjK
                exact hK ⟨hjK, rfl⟩
              · intro hjic
                exact hic ⟨hjic, rfl⟩
      · rintro (⟨_, hj⟩ | ⟨_, hj1, hj2, hj3, hx⟩ | ⟨hxal2, _⟩)
        · exact Or.inr (Or.inr ⟨hal, (hch2mem j x).mpr (Or.inl ⟨hj, rfl⟩)⟩)
        · refine Or.inr (Or.inr ⟨hal, (hch2mem j x).mpr (Or.inr ⟨hx, ?_, ?_⟩)⟩)
          · rintro ⟨hjK, _⟩
            exact hj2 hjK
          · rintro ⟨hjic, _⟩
            exact hj3 hjic
        · exact absurd (List.mem_cons_self x l) hxal2
    · have hx2 : ∀ j2, x ∈ ch2 j2 ↔ x ∈ ch j2 := by
        intro j2
        rw [hch2mem j2 x]
        constructor
        · rintro (⟨_, hxa2⟩ | ⟨hx, _⟩)
          · exact absurd hxa2 hxa
          · exact hx
        · intro hx
          refine Or.inr ⟨hx, ?_, ?_⟩
          · rintro ⟨_, hxa2⟩
            exact hxa hxa2
          · rintro ⟨_, hxa2⟩
            exact hxa hxa2
      constructor
      · rintro (⟨hxl, hj⟩ | ⟨hxl, hj1, hj2, hj3, hx⟩ | ⟨hxl, hx⟩)
        · exact Or.inl ⟨List.mem_cons_of_mem a hxl, hj⟩
        · exact Or.inr (Or.inl ⟨List.mem_cons_of_mem a hxl, hj1, hj2, hj3, (hx2 j).mp hx⟩)
        · refine Or.inr (Or.inr ⟨fun hm => ?_, (hx2 j).mp hx⟩)
          rcases List.mem_cons.mp hm with hm | hm
          · exact hxa hm
          · exact hxl hm
      · rintro (⟨hxal, hj⟩ | ⟨hxal, hj1, hj2, hj3, hx⟩ | ⟨hxal, hx⟩)
        · rcases List.mem_cons.mp hxal with hm | hm
          · exact absurd hm hxa
          · exact Or.inl ⟨hm, hj⟩
        · rcases List.mem_cons.mp hxal with hm | hm
          · exact absurd hm hxa
          · exact Or.inr (Or.inl ⟨hm, hj1, hj2, hj3, (hx2 j).mpr hx⟩)
        · exact Or.inr (Or.inr ⟨fun hm => hxal (List.mem_cons_of_mem a hm), (hx2 j).mpr hx⟩)

theorem foldr_union_mem (ch : ℕ → Finset ℕ) :
    ∀ (l : List ℕ) (x : ℕ),
      x ∈ l.foldr (fun j s => ch j ∪ s) ∅ ↔ ∃ j ∈ l, x ∈ ch j := by
  intro l
  induction l with
  | nil => intro x; simp
  | cons a l ih =>
    intro x
    simp only [List.foldr_cons, Finset.mem_union, ih]
    constructor
    · rintro (hx | ⟨j, hj, hx⟩)
      · exact ⟨a, List.mem_cons_self _ _, hx⟩
      · exact ⟨j, List.mem_cons_of_mem _ hj, hx⟩
    · rintro ⟨j, hj, hx⟩
      rcases List.mem_cons.mp hj with h | h
      · exact Or.inl (h ▸ hx)
      · exact Or.inr ⟨j, h, hx⟩

theorem unionLater_mem (ch : ℕ → Finset ℕ) (c K : ℕ) (hcK : c ≤ K) (x : ℕ) :
    x ∈ unionLater ch c K ↔ ∃ j, c < j ∧ j ≤ K ∧ x ∈ ch j := by
  unfold unionLater
  rw [foldr_union_mem]
  constructor
  · rintro ⟨j, hj, hx⟩
    rcases List.mem_range'_1.mp hj with ⟨h1, h2⟩
    exact ⟨j, by omega, by omega, hx⟩
  · rintro ⟨j, hj1, hj2, hx⟩
    exact ⟨j, List.mem_range'_1.mpr ⟨by omega, by omega⟩, hx⟩

/-
The two state invariants of the Stage C loop: `PartitionInv` says the
tranche sets partition the group's cell indices (each cell is in exactly one
of the `K+1` sets); `SlotInv c` says a cell's current tranche is its Stage A
tranche, the overflow tranche, or an already-processed tranche `< c`.
-/

def PartitionInv (K : ℕ) (univ : Finset ℕ) (ch : ℕ → Finset ℕ) : Prop :=
  (∀ x j j', j ≤ K → j' ≤ K → x ∈ ch j → x ∈ ch j' → j = j') ∧
  (∀ x, x ∈ univ ↔ ∃ j, j ≤ K ∧ x ∈ ch j) ∧
  (∀ j, K < j → ch j = ∅)

def SlotInv (c K : ℕ) (ic : ℕ → ℕ) (ch : ℕ → Finset ℕ) : Prop :=
  ∀ x j, j ≤ K → x ∈ ch j → j = ic x ∨ j = K ∨ j < c

/-
The master step lemma: applying the winning combination of tranche `c`
leaves earlier tranches untouched, replaces tranche `c` by kept ∪ promoted,
only removes cells from strictly later non-overflow tranches, moves the
demoted set into the overflow tranche, and preserves both invariants.
-/
theorem stageCStep_master (nb : ℕ → Finset ℕ) (area value : ℕ → ℚ) (ic : ℕ → ℕ)
    (divs : List ℚ) (univ : Finset ℕ) (ch : ℕ → Finset ℕ) (c : ℕ)
    (hcK : c < divs.length)
    (hirr : ∀ i, i ∉ nb i) (hsym : ∀ i j, i ∈ nb j → j ∈ nb i)
    (hpart : PartitionInv divs.length univ ch)
    (hslot : SlotInv c divs.length ic ch) :
    (∀ j, j < c → stageCStep nb area value ic divs ch c j = ch j) ∧
    (stageCStep nb area value ic divs ch c c =
      (chooseCombo nb area value divs ch c).2.1 ∪ (chooseCombo nb area value divs ch c).2.2.2) ∧
    (∀ j, c < j → j < divs.length → stageCStep nb area value ic divs ch c j ⊆ ch j) ∧
    (stageCStep nb area value ic divs ch c divs.length =
      (ch divs.length ∪ (chooseCombo nb area value divs ch c).2.2.1) \
        (chooseCombo nb area value divs ch c).2.2.2) ∧
    (∀ j, divs.length < j → stageCStep nb area value ic divs ch c j = ∅) ∧
    PartitionInv divs.length univ (stageCStep nb area value ic divs ch c) ∧
    SlotInv (c + 1) divs.length ic (stageCStep nb area value ic divs ch c) := by
  have hKne : c ≠ divs.length := Nat.ne_of_lt hcK
  set t := chooseCombo nb area value divs ch c with hT
  set kept := t.2.1 with hKept
  set dem := t.2.2.1 with hDem
  set promo := t.2.2.2 with hPromo
  have hspec := chooseCombo_spec nb area value divs ch c hirr hsym
  rw [← hT] at hspec
  have hkept_sub : kept ⊆ ch c := hspec.1
  have hdem_eq : dem = ch c \ kept := hspec.2.1
  have hpromo_sub : promo ⊆ (unionLater ch c divs.length) \ kept.biUnion nb :=
    hspec.2.2.2.1
  have hdem_sub : dem ⊆ ch c := by
    rw [hdem_eq]
    exact Finset.sdiff_subset
  have hpromo_loc : ∀ x ∈ promo, ∃ j', c < j' ∧ j' ≤ divs.length ∧ x ∈ ch j' := by
    intro x hx
    have := (Finset.mem_sdiff.mp (hpromo_sub hx)).1
    exact (unionLater_mem ch c divs.length (le_of_lt hcK) x).mp this
  have hpromo_slot : ∀ x ∈ promo, ∀ j, j ≤ divs.length → x ∈ ch j →
      c < j ∧ (j = ic x ∨ j = divs.length) := by
    intro x hx j hj hxj
    rcases hpromo_loc x hx with ⟨j', hj'1, hj'2, hxj'⟩
    have hjj : j = j' := hpart.1 x j j' hj hj'2 hxj hxj'
    subst hjj
    refine ⟨hj'1, ?_⟩
    rcases hslot x j hj hxj with h | h | h
    · exact Or.inl h
    · exact Or.inr h
    · omega
  set chd := apply_demotion c divs.length dem ch with hChd
  have hmemD : ∀ j x, x ∈ chd j ↔
      (j = c ∧ x ∈ ch c ∧ x ∉ dem) ∨ (j = divs.length ∧ (x ∈ ch divs.length ∨ x ∈ dem)) ∨
      (j ≠ c ∧ j ≠ divs.length ∧ x ∈ ch j) := by
    intro j x
    rw [hChd]
    unfold apply_demotion
    rw [demFold_mem c divs.length hKne (dem.sort (· ≤ ·)) ch j x]
    have hms : ∀ y : ℕ, y ∈ dem.sort (· ≤ ·) ↔ y ∈ dem :=
      fun y => Finset.mem_sort (α := ℕ) (· ≤ ·)
    simp only [hms]
  have hstep : stageCStep nb area value ic divs ch c =
      promoFold c divs.length ic (promo.sort (· ≤ ·)) chd := rfl
  have hmemP : ∀ j x, x ∈ stageCStep nb area value ic divs ch c j ↔
      (x ∈ promo ∧ j = c) ∨
      (x ∈ promo ∧ j ≠ c ∧ j ≠ divs.length ∧ j ≠ ic x ∧ x ∈ chd j) ∨
      (x ∉ promo ∧ x ∈ chd j) := by
    intro j x
    rw [hstep]
    rw [promoFold_mem c divs.length ic (promo.sort (· ≤ ·))
      (Finset.sort_nodup (· ≤ ·) promo) chd j x]
    have hms : ∀ y : ℕ, y ∈ promo.sort (· ≤ ·) ↔ y ∈ promo :=
      fun y => Finset.mem_sort (α := ℕ) (· ≤ ·)
    simp only [hms]
  have hP2 : ∀ j x, ¬(x ∈ promo ∧ j ≠ c ∧ j ≠ divs.length ∧ j ≠ ic x ∧ x ∈ chd j) := by
    rintro j x ⟨hxp, hj1, hj2, hj3, hxd⟩
    rcases (hmemD j x).mp hxd with ⟨hj, _⟩ | ⟨hj, _⟩ | ⟨_, _, hxj⟩
    · exact hj1 hj
    · exact hj2 hj
    · by_cases hjK : j ≤ divs.length
      · rcases hpromo_slot x hxp j hjK hxj with ⟨_, h | h⟩
        · exact hj3 h
        · exact hj2 h
      · rw [hpart.2.2 j (by omega)] at hxj
        exact absurd hxj (Finset.not_mem_empty x)
  have hpromo_not_early : ∀ x ∈ promo, ∀ j, j ≤ c → x ∉ ch j := by
    intro x hx j hj hxj
    have := (hpromo_slot x hx j (by omega) hxj).1
    omega
  have hfr : ∀ j, j < c → stageCStep nb area value ic divs ch c j = ch j := by
    intro j hj
    ext x
    rw [hmemP j x]
    constructor
    · rintro (⟨_, hjc⟩ | hP | ⟨hxp, hxd⟩)
      · omega
      · exact absurd hP (hP2 j x)
      · rcases (hmemD j x).mp hxd with ⟨hjc, _⟩ | ⟨hjK, _⟩ | ⟨_, _, hxj⟩
        · omega
        · omega
        · exact hxj
    · intro hxj
      right; right
      refine ⟨fun hxp => hpromo_not_early x hxp j (by omega) hxj, ?_⟩
      rw [hmemD j x]
      right; right
      exact ⟨by omega, by omega, hxj⟩
  have hcc : stageCStep nb area value ic divs ch c c = kept ∪ promo := by
    ext x
    rw [hmemP c x, Finset.mem_union]
    constructor
    · rintro (⟨hxp, _⟩ | hP | ⟨hxp, hxd⟩)
      · exact Or.inr hxp
      · exact absurd hP (hP2 c x)
      · rcases (hmemD c x).mp hxd with ⟨_, hxc, hxnd⟩ | ⟨hjK, _⟩ | ⟨hjc, _, _⟩
        · left
          rw [hdem_eq] at hxnd
          rcases Finset.mem_sdiff.mp (show x ∈ ch c \ (ch c \ kept) from
            Finset.mem_sdiff.mpr ⟨hxc, hxnd⟩) with ⟨_, h2⟩
          by_contra hxk
          exact hxnd (hdem_eq ▸ Finset.mem_sdiff.mpr ⟨hxc, hxk⟩)
        · exact absurd hjK hKne
        · exact absurd rfl hjc
    · rintro (hxk | hxp)
      · by_cases hxp : x ∈ promo
        · exact Or.inl ⟨hxp, rfl⟩
        · right; right
          refine ⟨hxp, ?_⟩
          rw [hmemD c x]
          left
          refine ⟨rfl, hkept_sub hxk, ?_⟩
          rw [hdem_eq]
          intro hxd
          exact (Finset.mem_sdiff.mp hxd).2 hxk
      · exact Or.inl ⟨hxp, rfl⟩
  have hmid : ∀ j, c < j → j < divs.length → stageCStep nb area value ic divs ch c j ⊆ ch j := by
    intro j hj1 hj2 x hx
    rcases (hmemP j x).mp hx with ⟨_, hjc⟩ | hP | ⟨_, hxd⟩
    · omega
    · exact absurd hP (hP2 j x)
    · rcases (hmemD j x).mp hxd with ⟨hjc, _⟩ | ⟨hjK, _⟩ | ⟨_, _, hxj⟩
      · omega
      · omega
      · exact hxj
  have hKeq : stageCStep nb area value ic divs ch c divs.length =
      (ch divs.length ∪ dem) \ promo := by
    ext x
    rw [hmemP divs.length x, Finset.mem_sdiff, Finset.mem_union]
    constructor
    · rintro (⟨_, hjc⟩ | hP | ⟨hxp, hxd⟩)
      · exact absurd hjc.symm hKne
      · exact absurd hP (hP2 divs.length x)
      · rcases (hmemD divs.length x).mp hxd with ⟨hjc, _⟩ | ⟨_, hor⟩ | ⟨_, hjK, _⟩
        · exact absurd hjc.symm hKne
        · exact ⟨hor, hxp⟩
        · exact absurd rfl hjK
    · rintro ⟨hor, hxp⟩
      right; right
      refine ⟨hxp, ?_⟩
      rw [hmemD divs.length x]
      right; left
      exact ⟨rfl, hor⟩
  have hhigh : ∀ j, divs.length < j → stageCStep nb area value ic divs ch c j = ∅ := by
    intro j hj
    ext x
    simp only [Finset.not_mem_empty, iff_false]
    intro hx
    rcases (hmemP j x).mp hx with ⟨_, hjc⟩ | hP | ⟨_, hxd⟩
    · omega
    · exact absurd hP (hP2 j x)
    · rcases (hmemD j x).mp hxd with ⟨hjc, _⟩ | ⟨hjK, _⟩ | ⟨_, _, hxj⟩
      · omega
      · omega
      · rw [hpart.2.2 j hj] at hxj
        exact absurd hxj (Finset.not_mem_empty x)
  have hchd_old : ∀ j x, x ∈ chd j → x ∈ ch j ∨ (j = divs.length ∧ x ∈ dem) := by
    intro j x hxd
    rcases (hmemD j x).mp hxd with ⟨hjc, hxc, _⟩ | ⟨hjK, hor | hxdem⟩ | ⟨_, _, hxj⟩
    · exact Or.inl (hjc ▸ hxc)
    · exact Or.inl (hjK ▸ hor)
    · exact Or.inr ⟨hjK, hxdem⟩
    · exact Or.inl hxj
  have hchd_c_ndem : ∀ x, x ∈ chd c → x ∉ dem := by
    intro x hxd
    rcases (hmemD c x).mp hxd with ⟨_, _, hnd⟩ | ⟨hjK, _⟩ | ⟨hjc, _, _⟩
    · exact hnd
    · exact absurd hjK hKne
    · exact absurd rfl hjc
  refine ⟨hfr, hcc, hmid, hKeq, hhigh, ⟨?_, ?_, hhigh⟩, ?_⟩
  · intro x j j' hj hj' hxj hxj'
    rcases (hmemP j x).mp hxj with ⟨hxp, hjc⟩ | hP | ⟨hxp, hxd⟩
    · rcases (hmemP j' x).mp hxj' with ⟨_, hjc'⟩ | hP' | ⟨hxp', _⟩
      · omega
      · exact absurd hP' (hP2 j' x)
      · exact absurd hxp hxp'
    · exact absurd hP (hP2 j x)
    · rcases (hmemP j' x).mp hxj' with ⟨hxp', _⟩ | hP' | ⟨_, hxd'⟩
      · exact absurd hxp' hxp
      · exact absurd hP' (hP2 j' x)
      · rcases hchd_old j x hxd with hxj1 | ⟨hjK, hxdem⟩
        · rcases hchd_old j' x hxd' with hxj1' | ⟨hjK', hxdem'⟩
          · exact hpart.1 x j j' hj hj' hxj1 hxj1'
          · subst hjK'
            have : j = c := hpart.1 x j c hj (le_of_lt hcK) hxj1 (hdem_sub hxdem')
            subst this
            exact absurd hxdem' (hchd_c_ndem x hxd)
        · subst hjK
          rcases hchd_old j' x hxd' with hxj1' | ⟨hjK', _⟩
          · have : j' = c := hpart.1 x j' c hj' (le_of_lt hcK) hxj1' (hdem_sub hxdem)
            subst this
            exact absurd hxdem (hchd_c_ndem x hxd')
          · omega
  · intro x
    rw [hpart.2.1 x]
    constructor
    · rintro ⟨j, hj, hxj⟩
      by_cases hxp : x ∈ promo
      · exact ⟨c, le_of_lt hcK, (hmemP c x).mpr (Or.inl ⟨hxp, rfl⟩)⟩
      · by_cases hxdem : x ∈ dem
        · refine ⟨divs.length, le_refl _, ?_⟩
          rw [hKeq]
          exact Finset.mem_sdiff.mpr ⟨Finset.mem_union_right _ hxdem, hxp⟩
        · refine ⟨j, hj, (hmemP j x).mpr (Or.inr (Or.inr ⟨hxp, ?_⟩))⟩
          rw [hmemD j x]
          by_cases hjc : j = c
          · subst hjc
            exact Or.inl ⟨rfl, hxj, hxdem⟩
          · by_cases hjK : j = divs.length
            · subst hjK
              exact Or.inr (Or.inl ⟨rfl, Or.inl hxj⟩)
            · exact Or.inr (Or.inr ⟨hjc, hjK, hxj⟩)
    · rintro ⟨j, hj, hxj⟩
      rcases (hmemP j x).mp hxj with ⟨hxp, _⟩ | hP | ⟨_, hxd⟩
      · rcases hpromo_loc x hxp with ⟨j', hj'1, hj'2, hxj'⟩
        exact ⟨j', hj'2, hxj'⟩
      · exact absurd hP (hP2 j x)
      · rcases hchd_old j x hxd with hxj1 | ⟨hjK, hxdem⟩
        · exact ⟨j, hj, hxj1⟩
        · exact ⟨c, le_of_lt hcK, hdem_sub hxdem⟩
  · intro x j hj hxj
    rcases (hmemP j x).mp hxj with ⟨_, hjc⟩ | hP | ⟨_, hxd⟩
    · right; right
      omega
    · exact absurd hP (hP2 j x)
    · rcases hchd_old j x hxd with hxj1 | ⟨hjK, _⟩
      · rcases hslot x j hj hxj1 with h | h | h
        · exact Or.inl h
        · exact Or.inr (Or.inl h)
        · right; right
          omega
      · exact Or.inr (Or.inl hjK)

theorem add_edge_mem (f : ℕ → Finset ℕ) (i j k x : ℕ) :
    x ∈ add_edge f i j k ↔ (k = i ∧ x = j) ∨ (k = j ∧ x = i) ∨ x ∈ f k := by
  unfold add_edge
  split_ifs with hki hkj
  · subst hki
    rw [Finset.mem_insert]
    constructor
    · rintro (h | h)
      · exact Or.inl ⟨rfl, h⟩
      · exact Or.inr (Or.inr h)
    · rintro (⟨_, h⟩ | ⟨hij, h⟩ | h)
      · exact Or.inl h
      · exact Or.inl (h.trans hij)
      · exact Or.inr h
  · subst hkj
    rw [Finset.mem_insert]
    constructor
    · rintro (h | h)
      · exact Or.inr (Or.inl ⟨rfl, h⟩)
      · exact Or.inr (Or.inr h)
    · rintro (⟨hji, _⟩ | ⟨_, h⟩ | h)
      · exact absurd hji hki
      · exact Or.inl h
      · exact Or.inr h
  · constructor
    · intro h
      exact Or.inr (Or.inr h)
    · rintro (⟨hk, _⟩ | ⟨hk, _⟩ | h)
      · exact absurd hk hki
      · exact absurd hk hkj
      · exact h

theorem add_edges_from_mono (c : GCell) :
    ∀ (rest : List GCell) (f : ℕ → Finset ℕ) (k x : ℕ),
      x ∈ f k → x ∈ add_edges_from c rest f k := by
  intro rest
  induction rest with
  | nil => intro f k x h; exact h
  | cons c2 rest ih =>
    intro f k x h
    rw [show add_edges_from c (c2 :: rest) f =
      add_edges_from c rest
        (if (c.geom ∩ c2.geom).Nonempty then add_edge f c.idx c2.idx else f) from rfl]
    apply ih
    by_cases hint : (c.geom ∩ c2.geom).Nonempty
    · rw [if_pos hint, add_edge_mem]
      exact Or.inr (Or.inr h)
    · rw [if_neg hint]
      exact h

theorem build_nb_mono :
    ∀ (l : List GCell) (f : ℕ → Finset ℕ) (k x : ℕ),
      x ∈ f k → x ∈ build_nb l f k := by
  intro l
  induction l with
  | nil => intro f k x h; exact h
  | cons c rest ih =>
    intro f k x h
    show x ∈ build_nb rest (add_edges_from c rest f) k
    exact ih _ k x (add_edges_from_mono c rest f k x h)

theorem add_edges_from_adds (c : GCell) :
    ∀ (rest : List GCell) (f : ℕ → Finset ℕ) (c2 : GCell), c2 ∈ rest →
      (c.geom ∩ c2.geom).Nonempty →
      c2.idx ∈ add_edges_from c rest f c.idx ∧ c.idx ∈ add_edges_from c rest f c2.idx := by
  intro rest
  induction rest with
  | nil => intro f c2 h; exact absurd h (List.not_mem_nil c2)
  | cons c3 rest ih =>
    intro f c2 hc2 hint
    rw [show add_edges_from c (c3 :: rest) f =
      add_edges_from c rest
        (if (c.geom ∩ c3.geom).Nonempty then add_edge f c.idx c3.idx else f) from rfl]
    rcases List.mem_cons.mp hc2 with hc2 | hc2
    · subst hc2
      rw [if_pos hint]
      constructor
      · apply add_edges_from_mono
        rw [add_edge_mem]
        exact Or.inl ⟨rfl, rfl⟩
      · apply add_edges_from_mono
        rw [add_edge_mem]
        exact Or.inr (Or.inl ⟨rfl, rfl⟩)
    · exact ih _ c2 hc2 hint

theorem build_nb_complete :
    ∀ (l : List GCell) (f : ℕ → Finset ℕ) (c1 c2 : GCell), c1 ∈ l → c2 ∈ l → c1 ≠ c2 →
      (c1.geom ∩ c2.geom).Nonempty → c2.idx ∈ build_nb l f c1.idx := by
  intro l
  induction l with
  | nil => intro f c1 _ h; exact absurd h (List.not_mem_nil c1)
  | cons a rest ih =>
    intro f c1 c2 hc1 hc2 hne hint
    show c2.idx ∈ build_nb rest (add_edges_from a rest f) c1.idx
    rcases List.mem_cons.mp hc1 with hc1a | hc1b
    · subst hc1a
      rcases List.mem_cons.mp hc2 with hc2a | hc2b
      · exact absurd hc2a.symm hne
      · apply build_nb_mono
        exact (add_edges_from_adds c1 rest f c2 hc2b hint).1
    · rcases List.mem_cons.mp hc2 with hc2a | hc2b
      · subst hc2a
        apply build_nb_mono
        have hint2 : (c2.geom ∩ c1.geom).Nonempty := by
          rw [Finset.inter_comm]
          exact hint
        exact (add_edges_from_adds c2 rest f c1 hc1b hint2).2
      · exact ih _ c1 c2 hc1b hc2b hne hint

theorem add_edges_from_irr (c : GCell) :
    ∀ (rest : List GCell) (f : ℕ → Finset ℕ), (∀ k, k ∉ f k) →
      (∀ c2 ∈ rest, c.idx ≠ c2.idx) → ∀ k, k ∉ add_edges_from c rest f k := by
  intro rest
  induction rest with
  | nil => intro f hf _ k; exact hf k
  | cons c2 rest ih =>
    intro f hf hne k
    rw [show add_edges_from c (c2 :: rest) f =
      add_edges_from c rest
        (if (c.geom ∩ c2.geom).Nonempty then add_edge f c.idx c2.idx else f) from rfl]
    apply ih
    · intro k2
      by_cases hint : (c.geom ∩ c2.geom).Nonempty
      · rw [if_pos hint, add_edge_mem]
        rintro (⟨h1, h2⟩ | ⟨h1, h2⟩ | h)
        · exact hne c2 (List.mem_cons_self _ _) (h1.symm.trans h2)
        · exact hne c2 (List.mem_cons_self _ _) (h2.symm.trans h1)
        · exact hf k2 h
      · rw [if_neg hint]
        exact hf k2
    · intro c3 hc3
      exact hne c3 (List.mem_cons_of_mem _ hc3)

theorem build_nb_irr :
    ∀ (l : List GCell) (f : ℕ → Finset ℕ), (l.map (fun cl => cl.idx)).Nodup →
      (∀ k, k ∉ f k) → ∀ k, k ∉ build_nb l f k := by
  intro l
  induction l with
  | nil => intro f _ hf k; exact hf k
  | cons a rest ih =>
    intro f hnd hf k
    show k ∉ build_nb rest (add_edges_from a rest f) k
    rw [List.map_cons, List.nodup_cons] at hnd
    apply ih _ hnd.2
    apply add_edges_from_irr
    · exact hf
    · intro c2 hc2 heq
      exact hnd.1 (heq ▸ List.mem_map.mpr ⟨c2, hc2, rfl⟩)

theorem add_edges_from_symH (c : GCell) :
    ∀ (rest : List GCell) (f : ℕ → Finset ℕ), (∀ a b, a ∈ f b → b ∈ f a) →
      ∀ a b, a ∈ add_edges_from c rest f b → b ∈ add_edges_from c rest f a := by
  intro rest
  induction rest with
  | nil => intro f hf a b h; exact hf a b h
  | cons c2 rest ih =>
    intro f hf a b h
    rw [show add_edges_from c (c2 :: rest) f =
      add_edges_from c rest
        (if (c.geom ∩ c2.geom).Nonempty then add_edge f c.idx c2.idx else f) from rfl] at h ⊢
    apply ih _ ?_ a b h
    intro a2 b2 h2
    by_cases hint : (c.geom ∩ c2.geom).Nonempty
    · rw [if_pos hint] at h2 ⊢
      rw [add_edge_mem] at h2 ⊢
      rcases h2 with ⟨h1, h2⟩ | ⟨h1, h2⟩ | h2
      · exact Or.inr (Or.inl ⟨h2, h1⟩)
      · exact Or.inl ⟨h2, h1⟩
      · exact Or.inr (Or.inr (hf a2 b2 h2))
    · rw [if_neg hint] at h2 ⊢
      exact hf a2 b2 h2

theorem build_nb_symH :
    ∀ (l : List GCell) (f : ℕ → Finset ℕ), (∀ a b, a ∈ f b → b ∈ f a) →
      ∀ a b, a ∈ build_nb l f b → b ∈ build_nb l f a := by
  intro l
  induction l with
  | nil => intro f hf a b h; exact hf a b h
  | cons c rest ih =>
    intro f hf a b h
    exact ih _ (add_edges_from_symH c rest f hf) a b h

theorem nb_of_irr (cells : List GCell) (hdist : distinctIdx cells) :
    ∀ k, k ∉ nb_of cells k :=
  build_nb_irr cells (fun _ => ∅) hdist (fun k => Finset.not_mem_empty k)

theorem nb_of_symH (cells : List GCell) :
    ∀ a b, a ∈ nb_of cells b → b ∈ nb_of cells a :=
  build_nb_symH cells (fun _ => ∅) (fun a b h => absurd h (Finset.not_mem_empty a))

theorem nb_of_complete (cells : List GCell) (c1 c2 : GCell) (hc1 : c1 ∈ cells)
    (hc2 : c2 ∈ cells) (hne : c1 ≠ c2) (hint : (c1.geom ∩ c2.geom).Nonempty) :
    c2.idx ∈ nb_of cells c1.idx :=
  build_nb_complete cells (fun _ => ∅) c1 c2 hc1 hc2 hne hint

theorem stageAAssign_fst (divs : List ℚ) :
    ∀ (l : List GCell) (ci : ℕ) (ca : ℚ),
      (stageAAssign divs ci ca l).map (fun p => p.1) = l := by
  intro l
  induction l with
  | nil => intro ci ca; rfl
  | cons cell rest ih =>
    intro ci ca
    rw [stageAAssign_cons]
    by_cases hcond :
        (exceedsDiv divs ci (ca + cell.area) && decide (ca + cell.area ≠ cell.area)) = true
    · rw [if_pos hcond, List.map_cons, ih]
    · rw [if_neg hcond, List.map_cons, ih]

theorem stageAAssign_le (divs : List ℚ) :
    ∀ (l : List GCell) (ci : ℕ) (ca : ℚ), ci ≤ divs.length →
      ∀ p ∈ stageAAssign divs ci ca l, p.2 ≤ divs.length := by
  intro l
  induction l with
  | nil => intro ci ca _ p hp; exact absurd hp (List.not_mem_nil p)
  | cons cell rest ih =>
    intro ci ca hci p hp
    rw [stageAAssign_cons] at hp
    by_cases hcond :
        (exceedsDiv divs ci (ca + cell.area) && decide (ca + cell.area ≠ cell.area)) = true
    · rw [if_pos hcond] at hp
      have hlt : ci < divs.length := by
        have hex : exceedsDiv divs ci (ca + cell.area) = true := by
          have hcond2 := hcond
          rw [Bool.and_eq_true] at hcond2
          exact hcond2.1
        rcases (exceedsDiv_iff divs ci (ca + cell.area)).mp hex with ⟨l2, hl2, _⟩
        rcases List.get?_eq_some.mp hl2 with ⟨h, _⟩
        exact h
      rcases List.mem_cons.mp hp with hp | hp
      · rw [hp]
        omega
      · exact ih (ci + 1) cell.area (by omega) p hp
    · rw [if_neg hcond] at hp
      rcases List.mem_cons.mp hp with hp | hp
      · rw [hp]
        exact hci
      · exact ih ci (ca + cell.area) hci p hp

theorem chopsInit_mem (assigned : List (GCell × ℕ)) (j x : ℕ) :
    x ∈ chopsInit assigned j ↔ ∃ p ∈ assigned, p.1.idx = x ∧ p.2 = j := by
  unfold chopsInit
  rw [List.mem_toFinset, List.mem_map]
  constructor
  · rintro ⟨p, hp, hpx⟩
    rcases List.mem_filter.mp hp with ⟨hmem, hcond⟩
    exact ⟨p, hmem, hpx, by simpa using hcond⟩
  · rintro ⟨p, hp, hpx, hpj⟩
    exact ⟨p, List.mem_filter.mpr ⟨hp, by simpa using hpj⟩, hpx⟩

theorem assigned_map_idx_nodup (divs : List ℚ) (cells : List GCell)
    (hdist : distinctIdx cells) :
    ((stage_a_chops divs cells).map (fun p => p.1.idx)).Nodup := by
  have h1 : (stage_a_chops divs cells).map (fun p => p.1.idx) =
      ((stage_a_chops divs cells).map (fun p => p.1)).map (fun cl => cl.idx) := by
    rw [List.map_map]
    rfl
  rw [h1]
  unfold stage_a_chops
  rw [stageAAssign_fst]
  have hperm : List.Perm ((sort_cells cells).map (fun cl => cl.idx))
      (cells.map (fun cl => cl.idx)) :=
    List.Perm.map _ (List.mergeSort_perm cells _)
  exact hperm.nodup_iff.mpr hdist

theorem assigned_inj (divs : List ℚ) (cells : List GCell) (hdist : distinctIdx cells) :
    ∀ p ∈ stage_a_chops divs cells, ∀ q ∈ stage_a_chops divs cells,
      p.1.idx = q.1.idx → p = q :=
  List.inj_on_of_nodup_map (assigned_map_idx_nodup divs cells hdist)

theorem assigned_fst_mem (divs : List ℚ) (cells : List GCell) (cl : GCell) :
    cl ∈ cells ↔ ∃ p ∈ stage_a_chops divs cells, p.1 = cl := by
  have h1 : cl ∈ cells ↔ cl ∈ sort_cells cells :=
    ((List.mergeSort_perm cells _).mem_iff).symm
  rw [h1]
  have h2 : sort_cells cells = (stage_a_chops divs cells).map (fun p => p.1) := by
    unfold stage_a_chops
    rw [stageAAssign_fst]
  rw [h2, List.mem_map]

theorem init_chop_eq (divs : List ℚ) (cells : List GCell) (hdist : distinctIdx cells) :
    ∀ p ∈ stage_a_chops divs cells, init_chop divs cells p.1.idx = p.2 := by
  intro p hp
  unfold init_chop
  cases hfind : (stage_a_chops divs cells).find? (fun q => q.1.idx == p.1.idx) with
  | none =>
    have := List.find?_eq_none.mp hfind p hp
    simp at this
  | some q =>
    have hqmem : q ∈ stage_a_chops divs cells := List.mem_of_find?_eq_some hfind
    have hqidx : q.1.idx = p.1.idx := by
      have := List.find?_some hfind
      simpa using this
    have : q = p := assigned_inj divs cells hdist q hqmem p hp hqidx
    rw [this]

theorem init_chop_le (divs : List ℚ) (cells : List GCell) (x : ℕ) :
    init_chop divs cells x ≤ divs.length := by
  unfold init_chop
  cases hfind : (stage_a_chops divs cells).find? (fun q => q.1.idx == x) with
  | none => exact le_refl _
  | some q =>
    exact stageAAssign_le divs (sort_cells cells) 0 0 (Nat.zero_le _) q
      (List.mem_of_find?_eq_some hfind)

theorem chopsInit_partition (divs : List ℚ) (cells : List GCell)
    (hdist : distinctIdx cells) :
    PartitionInv divs.length (group_univ cells) (chopsInit (stage_a_chops divs cells)) := by
  refine ⟨?_, ?_, ?_⟩
  · intro x j j' _ _ hxj hxj'
    rcases (chopsInit_mem _ j x).mp hxj with ⟨p, hp, hpx, hpj⟩
    rcases (chopsInit_mem _ j' x).mp hxj' with ⟨q, hq, hqx, hqj⟩
    have : p = q := assigned_inj divs cells hdist p hp q hq (hpx.trans hqx.symm)
    rw [← hpj, ← hqj, this]
  · intro x
    unfold group_univ
    rw [List.mem_toFinset, List.mem_map]
    constructor
    · rintro ⟨cl, hcl, hcx⟩
      rcases (assigned_fst_mem divs cells cl).mp hcl with ⟨p, hp, hpe⟩
      refine ⟨p.2, stageAAssign_le divs (sort_cells cells) 0 0 (Nat.zero_le _) p hp, ?_⟩
      exact (chopsInit_mem _ p.2 x).mpr ⟨p, hp, by rw [hpe, hcx], rfl⟩
    · rintro ⟨j, _, hxj⟩
      rcases (chopsInit_mem _ j x).mp hxj with ⟨p, hp, hpx, _⟩
      refine ⟨p.1, ?_, hpx⟩
      exact (assigned_fst_mem divs cells p.1).mpr ⟨p, hp, rfl⟩
  · intro j hj
    rw [Finset.eq_empty_iff_forall_not_mem]
    intro x hx
    rcases (chopsInit_mem _ j x).mp hx with ⟨p, hp, _, hpj⟩
    have := stageAAssign_le divs (sort_cells cells) 0 0 (Nat.zero_le _) p hp
    omega

theorem chopsInit_slot (divs : List ℚ) (cells : List GCell) (hdist : distinctIdx cells) :
    SlotInv 0 divs.length (init_chop divs cells) (chopsInit (stage_a_chops divs cells)) := by
  intro x j _ hxj
  rcases (chopsInit_mem _ j x).mp hxj with ⟨p, hp, hpx, hpj⟩
  left
  rw [← hpx, init_chop_eq divs cells hdist p hp, hpj]

theorem stageC_iter_zero (divs : List ℚ) (cells : List GCell) :
    stageC_iter divs cells 0 = chopsInit (stage_a_chops divs cells) := rfl

theorem stageC_iter_succ (divs : List ℚ) (cells : List GCell) (n : ℕ) :
    stageC_iter divs cells (n + 1) =
      stageCStep (nb_of cells) (area_of cells) (value_of cells) (init_chop divs cells)
        divs (stageC_iter divs cells n) n := by
  unfold stageC_iter
  rw [List.range_succ, List.foldl_append]
  rfl

/-
The running invariant of the full Stage C loop: after `n` tranches the
tranche sets still partition the group, every cell sits in its Stage-A
tranche, the overflow tranche, or an already-processed tranche, and all
processed tranches are internally non-adjacent.
-/
theorem stageC_inv (divs : List ℚ) (cells : List GCell) (hdist : distinctIdx cells) :
    ∀ n, n ≤ divs.length →
      PartitionInv divs.length (group_univ cells) (stageC_iter divs cells n) ∧
      SlotInv n divs.length (init_chop divs cells) (stageC_iter divs cells n) ∧
      (∀ j, j < n → ∀ x ∈ stageC_iter divs cells n j, ∀ y ∈ nb_of cells x,
        y ∉ stageC_iter divs cells n j) := by
  intro n
  induction n with
  | zero =>
    intro _
    refine ⟨chopsInit_partition divs cells hdist, chopsInit_slot divs cells hdist, ?_⟩
    intro j hj
    omega
  | succ n ih =>
    intro hn
    have hnK : n < divs.length := hn
    have ihn := ih (by omega)
    have hmaster := stageCStep_master (nb_of cells) (area_of cells) (value_of cells)
      (init_chop divs cells) divs (group_univ cells) (stageC_iter divs cells n) n hnK
      (nb_of_irr cells hdist) (nb_of_symH cells) ihn.1 ihn.2.1
    refine ⟨?_, ?_, ?_⟩
    · rw [stageC_iter_succ]
      exact hmaster.2.2.2.2.2.1
    · rw [stageC_iter_succ]
      exact hmaster.2.2.2.2.2.2
    · intro j hj x hx y hy hyin
      rw [stageC_iter_succ] at hx hyin
      rcases Nat.lt_or_ge j n with hjn | hjn
      · rw [hmaster.1 j hjn] at hx hyin
        exact ihn.2.2 j hjn x hx y hy hyin
      · have hjeq : j = n := by omega
        subst hjeq
        rw [hmaster.2.1] at hx hyin
        set t := chooseCombo (nb_of cells) (area_of cells) (value_of cells) divs
          (stageC_iter divs cells j) j with hT
        have hspec := chooseCombo_spec (nb_of cells) (area_of cells) (value_of cells)
          divs (stageC_iter divs cells j) j (nb_of_irr cells hdist) (nb_of_symH cells)
        rw [← hT] at hspec
        have hKn : ∀ i ∈ t.2.1, ∀ z ∈ nb_of cells i, z ∉ t.2.1 :=
          (has_chop_clusters_eq_false t.2.1 (nb_of cells)).mp hspec.2.2.1
        have hPs : t.2.2.2 ⊆ unionLater (stageC_iter divs cells j) j divs.length \
            t.2.1.biUnion (nb_of cells) := hspec.2.2.2.1
        have hPp : ∀ a ∈ t.2.2.2, ∀ b ∈ t.2.2.2, a ≠ b → b ∉ nb_of cells a :=
          hspec.2.2.2.2.1
        rcases Finset.mem_union.mp hx with hxk | hxp
        · rcases Finset.mem_union.mp hyin with hyk | hyp
          · exact hKn x hxk y hy hyk
          · have : y ∈ t.2.1.biUnion (nb_of cells) :=
              Finset.mem_biUnion.mpr ⟨x, hxk, hy⟩
            exact (Finset.mem_sdiff.mp (hPs hyp)).2 this
        · rcases Finset.mem_union.mp hyin with hyk | hyp
          · have : x ∈ t.2.1.biUnion (nb_of cells) :=
              Finset.mem_biUnion.mpr ⟨y, hyk, nb_of_symH cells y x hy⟩
            exact (Finset.mem_sdiff.mp (hPs hxp)).2 this
          · by_cases hxy : x = y
            · subst hxy
              exact nb_of_irr cells hdist x hy
            · exact hPp x hxp y hyp hxy hy

/-
Evaluation lemmas for concrete instances: when a tranche has no clusters and
the promotion pool is empty, the winning combination keeps the whole tranche
and the step is the identity.  These drive the closed-form witnesses below.
-/

theorem maxByKey_single {α : Type} (key : α → ℚ) (x : α) : maxByKey key [x] = some x := rfl

theorem iter_demotion_candidates_nil (S : Finset ℕ) (nb : ℕ → Finset ℕ)
    (h : has_chop_clusters S nb = false) :
    iter_demotion_candidates S [] nb = [(S, ∅)] := by
  simp [iter_demotion_candidates, listProduct, finsetListUnion, h, Finset.sdiff_self]

theorem promoSelect_none (nb : ℕ → Finset ℕ) (area value : ℕ → ℚ) (limit : ℚ)
    (ch : ℕ → Finset ℕ) (c K : ℕ) (kept : Finset ℕ)
    (h : unionLater ch c K \ kept.biUnion nb = ∅) :
    promoSelect nb area value limit ch c K kept = (0, ∅) := by
  unfold promoSelect
  rw [h]
  simp [Finset.sort_empty, maxByKey]

theorem chooseCombo_nil_clusters (nb : ℕ → Finset ℕ) (area value : ℕ → ℚ)
    (divs : List ℚ) (ch : ℕ → Finset ℕ) (c : ℕ)
    (hcl : get_chop_clusters (ch c) nb = [])
    (hhc : has_chop_clusters (ch c) nb = false)
    (hpool : unionLater ch c divs.length \ (ch c).biUnion nb = ∅) :
    chooseCombo nb area value divs ch c =
      (Finset.sum (ch c) value + 0, ch c, ∅, ∅) := by
  unfold chooseCombo
  rw [hcl, iter_demotion_candidates_nil (ch c) nb hhc]
  simp only [List.map_cons, List.map_nil, maxByKey_single]
  rw [promoSelect_none nb area value (divs.getD c 0) ch c divs.length (ch c) hpool]

theorem apply_demotion_emptyFs (c K : ℕ) (ch : ℕ → Finset ℕ) :
    apply_demotion c K ∅ ch = ch := by
  unfold apply_demotion demFold
  simp [Finset.sort_empty]

theorem apply_promotion_emptyFs (c K : ℕ) (ic : ℕ → ℕ) (ch : ℕ → Finset ℕ) :
    apply_promotion c K ic ∅ ch = ch := by
  unfold apply_promotion promoFold
  simp [Finset.sort_empty]

theorem stageCStep_nil_clusters (nb : ℕ → Finset ℕ) (area value : ℕ → ℚ) (ic : ℕ → ℕ)
    (divs : List ℚ) (ch : ℕ → Finset ℕ) (c : ℕ)
    (hcl : get_chop_clusters (ch c) nb = [])
    (hhc : has_chop_clusters (ch c) nb = false)
    (hpool : unionLater ch c divs.length \ (ch c).biUnion nb = ∅) :
    stageCStep nb area value ic divs ch c = ch := by
  unfold stageCStep
  rw [chooseCombo_nil_clusters nb area value divs ch c hcl hhc hpool]
  show apply_promotion c divs.length ic ∅ (apply_demotion c divs.length ∅ ch) = ch
  rw [apply_demotion_emptyFs, apply_promotion_emptyFs]

/-
Concrete two-cell and one-cell groups used by the closed-form witnesses: the
two-cell group has disjoint geometries (no adjacency), the one-cell group has
a single cell whose area 5 exceeds the sole quota 2.
-/

def cellsPair : List GCell :=
  [⟨2, {0}, 1, 0⟩, ⟨1, {1}, 1, 1⟩]

def cellA : List GCell :=
  [⟨1, {0}, 5, 0⟩]

def chA0 : ℕ → Finset ℕ :=
  stageC_iter [(2 : ℚ)] cellA 0

def tA0 : ℚ × Finset ℕ × Finset ℕ × Finset ℕ :=
  chooseCombo (nb_of cellA) (area_of cellA) (value_of cellA) [(2 : ℚ)] chA0 0

theorem cellsPair_stageA :
    stage_a_chops [(2 : ℚ)] cellsPair = [(⟨2, {0}, 1, 0⟩, 0), (⟨1, {1}, 1, 1⟩, 0)] := by
  norm_num [stage_a_chops, sort_cells, cellsPair, List.mergeSort, stageAAssign, exceedsDiv]

theorem cellsPair_final :
    stageC_iter [(2 : ℚ)] cellsPair 1 =
      chopsInit [(⟨2, {0}, 1, 0⟩, 0), (⟨1, {1}, 1, 1⟩, 0)] := by
  rw [stageC_iter_succ, stageC_iter_zero, cellsPair_stageA]
  have h0 : chopsInit [(⟨2, {0}, 1, 0⟩, 0), (⟨1, {1}, 1, 1⟩, 0)] 0 = {0, 1} := by decide
  have hu : unionLater (chopsInit [(⟨2, {0}, 1, 0⟩, 0), (⟨1, {1}, 1, 1⟩, 0)]) 0
      ([(2 : ℚ)]).length = ∅ := by decide
  have hhc : has_chop_clusters ({0, 1} : Finset ℕ) (nb_of cellsPair) = false := by
    refine (has_chop_clusters_eq_false _ _).mpr ?_
    intro i hi j hj
    have hn : nb_of cellsPair i = ∅ := by
      rcases Finset.mem_insert.mp hi with h | h
      · subst h
        decide
      · have h1 : i = 1 := Finset.mem_singleton.mp h
        subst h1
        decide
    exact absurd (hn ▸ hj) (Finset.not_mem_empty j)
  refine stageCStep_nil_clusters _ _ _ _ _ _ _ (by decide) (by rw [h0]; exact hhc) ?_
  rw [hu]
  exact Finset.empty_sdiff _

theorem cellA_stageA : stage_a_chops [(2 : ℚ)] cellA = [(⟨1, {0}, 5, 0⟩, 0)] := by
  norm_num [stage_a_chops, sort_cells, cellA, List.mergeSort, stageAAssign, exceedsDiv]

theorem cellA_combo : tA0.2.1 = {0} ∧ tA0.2.2.1 = ∅ ∧ tA0.2.2.2 = ∅ := by
  have hch : chA0 = chopsInit [(⟨1, {0}, 5, 0⟩, 0)] := by
    unfold chA0
    rw [stageC_iter_zero, cellA_stageA]
  have hcl : get_chop_clusters (chA0 0) (nb_of cellA) = [] := by
    rw [hch]
    decide
  have h00 : chopsInit [(⟨1, {0}, 5, 0⟩, 0)] 0 = {0} := by decide
  have hhc : has_chop_clusters (chA0 0) (nb_of cellA) = false := by
    rw [hch, h00]
    refine (has_chop_clusters_eq_false _ _).mpr ?_
    intro i hi j hj
    have h1 : i = 0 := Finset.mem_singleton.mp hi
    subst h1
    have hn : nb_of cellA 0 = ∅ := by decide
    exact absurd (hn ▸ hj) (Finset.not_mem_empty j)
  have hu : unionLater chA0 0 ([(2 : ℚ)]).length = ∅ := by
    rw [hch]
    decide
  have hpool : unionLater chA0 0 ([(2 : ℚ)]).length \ (chA0 0).biUnion (nb_of cellA) = ∅ := by
    rw [hu]
    exact Finset.empty_sdiff _
  have hcc := chooseCombo_nil_clusters (nb_of cellA) (area_of cellA) (value_of cellA)
    [(2 : ℚ)] chA0 0 hcl hhc hpool
  have h0 : chA0 0 = {0} := by
    rw [hch, h00]
  rw [show tA0 = chooseCombo (nb_of cellA) (area_of cellA) (value_of cellA) [(2 : ℚ)] chA0 0
    from rfl, hcc]
  exact ⟨h0, rfl, rfl⟩

/-- C1: after the full Stage C pass over a group, any two distinct cells of the
group that both end up in a tranche `c < K` are non-adjacent: there is no edge
between them in the adjacency graph, and their geometries do not intersect. -/
theorem C1_final_nonadjacency (divs : List ℚ) (cells : List GCell)
    (hdist : distinctIdx cells) (c : ℕ) (hc : c < divs.length)
    (ci cj : GCell) (hci : ci ∈ cells) (hcj : cj ∈ cells) (hne : ci.idx ≠ cj.idx)
    (hi : ci.idx ∈ chop_pipeline divs cells c)
    (hj : cj.idx ∈ chop_pipeline divs cells c) :
    cj.idx ∉ nb_of cells ci.idx ∧ ci.geom ∩ cj.geom = ∅ := by
  unfold chop_pipeline at hi hj
  have hinv := stageC_inv divs cells hdist divs.length le_rfl
  constructor
  · intro hmem
    exact hinv.2.2 c hc ci.idx hi cj.idx hmem hj
  · by_contra hne2
    have hnonempty : (ci.geom ∩ cj.geom).Nonempty := Finset.nonempty_iff_ne_empty.mpr hne2
    have hcine : ci ≠ cj := fun h => hne (congrArg GCell.idx h)
    have hadj := nb_of_complete cells ci cj hci hcj hcine hnonempty
    exact hinv.2.2 c hc ci.idx hi cj.idx hadj hj

/-- C1 witness: in the two-cell group with disjoint geometries and quota list
`[2]`, both cells end in tranche 0 and the theorem yields their
non-adjacency. -/
theorem C1_final_nonadjacency_witness :
    (0 : ℕ) ∈ chop_pipeline [(2 : ℚ)] cellsPair 0 ∧
    (1 : ℕ) ∈ chop_pipeline [(2 : ℚ)] cellsPair 0 ∧
    ((1 : ℕ) ∉ nb_of cellsPair 0 ∧ ({0} : Finset ℕ) ∩ {1} = ∅) := by
  have hfin : chop_pipeline [(2 : ℚ)] cellsPair =
      chopsInit [(⟨2, {0}, 1, 0⟩, 0), (⟨1, {1}, 1, 1⟩, 0)] := by
    unfold chop_pipeline
    exact cellsPair_final
  have hi : (0 : ℕ) ∈ chop_pipeline [(2 : ℚ)] cellsPair 0 := by
    rw [hfin]
    decide
  have hj : (1 : ℕ) ∈ chop_pipeline [(2 : ℚ)] cellsPair 0 := by
    rw [hfin]
    decide
  exact ⟨hi, hj, C1_final_nonadjacency [(2 : ℚ)] cellsPair (by unfold distinctIdx; decide)
    0 (by decide) ⟨2, {0}, 1, 0⟩ ⟨1, {1}, 1, 1⟩ (by decide) (by decide) (by decide) hi hj⟩

/-- C3: at every point of the optimization (after Stage A, and after each of
the first `n` Stage C tranche iterations), the `K+1` tranche sets are pairwise
disjoint and together cover exactly the cell indices of the group. -/
theorem C3_partition (divs : List ℚ) (cells : List GCell) (hdist : distinctIdx cells)
    (n : ℕ) (hn : n ≤ divs.length) :
    (∀ j k, j ≤ divs.length → k ≤ divs.length → j ≠ k →
      stageC_iter divs cells n j ∩ stageC_iter divs cells n k = ∅) ∧
    (Finset.range (divs.length + 1)).biUnion (stageC_iter divs cells n) =
      group_univ cells := by
  obtain ⟨⟨huniq, hcover, hhigh⟩, -, -⟩ := stageC_inv divs cells hdist n hn
  constructor
  · intro j k hj hk hne
    refine Finset.eq_empty_iff_forall_not_mem.mpr ?_
    intro x hx
    rcases Finset.mem_inter.mp hx with ⟨h1, h2⟩
    exact hne (huniq x j k hj hk h1 h2)
  · ext x
    simp only [Finset.mem_biUnion, Finset.mem_range]
    constructor
    · rintro ⟨j, hj, hx⟩
      exact (hcover x).mpr ⟨j, by omega, hx⟩
    · intro hx
      rcases (hcover x).mp hx with ⟨j, hj, hx2⟩
      exact ⟨j, by omega, hx2⟩

/-- C3 witness: the partition property instantiated after the single Stage C
iteration of the two-cell group with quota list `[2]`. -/
theorem C3_partition_witness :
    distinctIdx cellsPair ∧ (1 : ℕ) ≤ ([(2 : ℚ)]).length ∧
    ((∀ j k, j ≤ ([(2 : ℚ)]).length → k ≤ ([(2 : ℚ)]).length → j ≠ k →
      stageC_iter [(2 : ℚ)] cellsPair 1 j ∩ stageC_iter [(2 : ℚ)] cellsPair 1 k = ∅) ∧
    (Finset.range (([(2 : ℚ)]).length + 1)).biUnion (stageC_iter [(2 : ℚ)] cellsPair 1) =
      group_univ cellsPair) :=
  ⟨by unfold distinctIdx; decide, by decide,
    C3_partition [(2 : ℚ)] cellsPair (by unfold distinctIdx; decide) 1 (by decide)⟩

/-- C4 (corrected): the combination selected while improving tranche `c` takes
its promoted cells from strictly later tranches, none of them is adjacent to
the kept set or to another promoted cell, and — whenever the promoted set is
nonempty — the kept area plus the promoted area stays within the quota
`divs[c]`.  The unconditional quota bound of the original claim is refuted by
`C4_counterexample`. -/
theorem C4_promotion (divs : List ℚ) (cells : List GCell) (hdist : distinctIdx cells)
    (c : ℕ) (hc : c < divs.length) (ch : ℕ → Finset ℕ)
    (t : ℚ × Finset ℕ × Finset ℕ × Finset ℕ)
    (hch : ch = stageC_iter divs cells c)
    (ht : t = chooseCombo (nb_of cells) (area_of cells) (value_of cells) divs ch c) :
    (∀ x ∈ t.2.2.2, ∃ j, c < j ∧ j ≤ divs.length ∧ x ∈ ch j) ∧
    (∀ x ∈ t.2.2.2, ∀ y ∈ t.2.1, x ∉ nb_of cells y) ∧
    (∀ x ∈ t.2.2.2, ∀ y ∈ t.2.2.2, x ≠ y → y ∉ nb_of cells x) ∧
    (t.2.2.2.Nonempty →
      Finset.sum t.2.1 (area_of cells) + Finset.sum t.2.2.2 (area_of cells) ≤
        divs.getD c 0) := by
  subst ht
  have hspec := chooseCombo_spec (nb_of cells) (area_of cells) (value_of cells) divs ch c
    (nb_of_irr cells hdist) (nb_of_symH cells)
  refine ⟨?_, ?_, hspec.2.2.2.2.1, hspec.2.2.2.2.2⟩
  · intro x hx
    have h1 := (Finset.mem_sdiff.mp (hspec.2.2.2.1 hx)).1
    exact (unionLater_mem ch c divs.length (le_of_lt hc) x).mp h1
  · intro x hx y hy hmem
    have h2 := (Finset.mem_sdiff.mp (hspec.2.2.2.1 hx)).2
    exact h2 (Finset.mem_biUnion.mpr ⟨y, hy, hmem⟩)

/-- C4 counterexample: with the single cell of area 5 and quota list `[2]`,
the selected combination keeps the whole tranche and promotes nothing, and
the kept area 5 exceeds the quota 2 — the unconditional area bound of the
original claim is false. -/
theorem C4_counterexample :
    ¬ (Finset.sum tA0.2.1 (area_of cellA) + Finset.sum tA0.2.2.2 (area_of cellA) ≤
      ([(2 : ℚ)]).getD 0 0) := by
  rw [cellA_combo.1, cellA_combo.2.2]
  norm_num [area_of, cellA, List.find?]

/-- C4 witness: the corrected promotion properties instantiated at the
one-cell group, its Stage C state before tranche 0, and the combination the
code selects there. -/
theorem C4_promotion_witness :
    distinctIdx cellA ∧ 0 < ([(2 : ℚ)]).length ∧
    ((∀ x ∈ tA0.2.2.2, ∃ j, 0 < j ∧ j ≤ ([(2 : ℚ)]).length ∧ x ∈ chA0 j) ∧
    (∀ x ∈ tA0.2.2.2, ∀ y ∈ tA0.2.1, x ∉ nb_of cellA y) ∧
    (∀ x ∈ tA0.2.2.2, ∀ y ∈ tA0.2.2.2, x ≠ y → y ∉ nb_of cellA x) ∧
    (tA0.2.2.2.Nonempty →
      Finset.sum tA0.2.1 (area_of cellA) + Finset.sum tA0.2.2.2 (area_of cellA) ≤
        ([(2 : ℚ)]).getD 0 0)) :=
  ⟨by unfold distinctIdx; decide, by decide,
    C4_promotion [(2 : ℚ)] cellA (by unfold distinctIdx; decide) 0 (by decide)
      chA0 tA0 rfl rfl⟩

/-- C10: iteration `c` of Stage C leaves every earlier tranche unchanged, only
removes cells from strictly later non-overflow tranches, adds to tranche `c`
only cells coming from strictly later tranches, sends every cell removed from
`c` to the overflow tranche, and adds to the overflow tranche only cells
coming from `c`. -/
theorem C10_frame (divs : List ℚ) (cells : List GCell) (hdist : distinctIdx cells)
    (c : ℕ) (hc : c < divs.length) :
    (∀ j, j < c → stageC_iter divs cells (c + 1) j = stageC_iter divs cells c j) ∧
    (∀ j, c < j → j < divs.length →
      stageC_iter divs cells (c + 1) j ⊆ stageC_iter divs cells c j) ∧
    (∀ x, x ∈ stageC_iter divs cells (c + 1) c → x ∉ stageC_iter divs cells c c →
      ∃ j, c < j ∧ j ≤ divs.length ∧ x ∈ stageC_iter divs cells c j) ∧
    (∀ x, x ∈ stageC_iter divs cells c c → x ∉ stageC_iter divs cells (c + 1) c →
      x ∈ stageC_iter divs cells (c + 1) divs.length) ∧
    (∀ x, x ∈ stageC_iter divs cells (c + 1) divs.length →
      x ∉ stageC_iter divs cells c divs.length → x ∈ stageC_iter divs cells c c) := by
  have hinv := stageC_inv divs cells hdist c (le_of_lt hc)
  have hmaster := stageCStep_master (nb_of cells) (area_of cells) (value_of cells)
    (init_chop divs cells) divs (group_univ cells) (stageC_iter divs cells c) c hc
    (nb_of_irr cells hdist) (nb_of_symH cells) hinv.1 hinv.2.1
  have hspec := chooseCombo_spec (nb_of cells) (area_of cells) (value_of cells) divs
    (stageC_iter divs cells c) c (nb_of_irr cells hdist) (nb_of_symH cells)
  obtain ⟨hfr, hcc, hmid, hKeq, hhigh, hpart2, hslot2⟩ := hmaster
  refine ⟨?_, ?_, ?_, ?_, ?_⟩
  · intro j hj
    rw [stageC_iter_succ]
    exact hfr j hj
  · intro j hj1 hj2
    rw [stageC_iter_succ]
    exact hmid j hj1 hj2
  · intro x hx hxc
    rw [stageC_iter_succ, hcc] at hx
    rcases Finset.mem_union.mp hx with hk | hp
    · exact absurd (hspec.1 hk) hxc
    · have h1 := (Finset.mem_sdiff.mp (hspec.2.2.2.1 hp)).1
      exact (unionLater_mem (stageC_iter divs cells c) c divs.length (le_of_lt hc) x).mp h1
  · intro x hxc hnx
    rw [stageC_iter_succ, hcc] at hnx
    rw [stageC_iter_succ, hKeq]
    have hxd : x ∈ (chooseCombo (nb_of cells) (area_of cells) (value_of cells) divs
        (stageC_iter divs cells c) c).2.2.1 := by
      rw [hspec.2.1]
      exact Finset.mem_sdiff.mpr ⟨hxc, fun hk => hnx (Finset.mem_union_left _ hk)⟩
    refine Finset.mem_sdiff.mpr ⟨Finset.mem_union_right _ hxd, ?_⟩
    intro hp
    have h1 := (Finset.mem_sdiff.mp (hspec.2.2.2.1 hp)).1
    rcases (unionLater_mem (stageC_iter divs cells c) c divs.length (le_of_lt hc) x).mp h1
      with ⟨j, hj1, hj2, hxj⟩
    have hcj := hinv.1.1 x c j (le_of_lt hc) hj2 hxc hxj
    omega
  · intro x hxK hnK
    rw [stageC_iter_succ, hKeq] at hxK
    rcases Finset.mem_union.mp (Finset.mem_sdiff.mp hxK).1 with hK | hd
    · exact absurd hK hnK
    · rw [hspec.2.1] at hd
      exact (Finset.mem_sdiff.mp hd).1

/-- C10 witness: the frame properties of iteration 0 instantiated at the
two-cell group with quota list `[2]`. -/
theorem C10_frame_witness :
    distinctIdx cellsPair ∧ 0 < ([(2 : ℚ)]).length ∧
    ((∀ j, j < 0 → stageC_iter [(2 : ℚ)] cellsPair 1 j = stageC_iter [(2 : ℚ)] cellsPair 0 j) ∧
    (∀ j, 0 < j → j < ([(2 : ℚ)]).length →
      stageC_iter [(2 : ℚ)] cellsPair 1 j ⊆ stageC_iter [(2 : ℚ)] cellsPair 0 j) ∧
    (∀ x, x ∈ stageC_iter [(2 : ℚ)] cellsPair 1 0 → x ∉ stageC_iter [(2 : ℚ)] cellsPair 0 0 →
      ∃ j, 0 < j ∧ j ≤ ([(2 : ℚ)]).length ∧ x ∈ stageC_iter [(2 : ℚ)] cellsPair 0 j) ∧
    (∀ x, x ∈ stageC_iter [(2 : ℚ)] cellsPair 0 0 → x ∉ stageC_iter [(2 : ℚ)] cellsPair 1 0 →
      x ∈ stageC_iter [(2 : ℚ)] cellsPair 1 ([(2 : ℚ)]).length) ∧
    (∀ x, x ∈ stageC_iter [(2 : ℚ)] cellsPair 1 ([(2 : ℚ)]).length →
      x ∉ stageC_iter [(2 : ℚ)] cellsPair 0 ([(2 : ℚ)]).length →
      x ∈ stageC_iter [(2 : ℚ)] cellsPair 0 0)) :=
  ⟨by unfold distinctIdx; decide, by decide,
    C10_frame [(2 : ℚ)] cellsPair (by unfold distinctIdx; decide) 0 (by decide)⟩
